import Mathlib

/-!
Expiration watcher.

A shallow embedding of `expirationwatch/expiration_watcher.go` and the
properties of its `Add`, `Remove`, `Start`, `Stop` and `prune` methods.

* `int64` values (expiration timestamps, `time.Duration`) are integers; the
  watcher only compares and stores them, it does no arithmetic of its own.
* `map[string]struct{}` is a `Finset String`; the order in which a Go `range`
  visits a map is an arbitrary enumeration, carried by a `MapRange`.
* a call of a method is one step on the `Watcher` state; the polling goroutine,
  the output queue and its consumer are a `System` that steps on events, one
  round of the goroutine's loop being one step.
* `Watcher.pruneRound` is one round of `prune` at the grain of its locks, with
  the calls that get the lock between its two critical sections.
* `time.Now()` is a clock handed to `prune`; a clock that stands still during
  the call is the constant function.
-/

namespace expirationwatch

/-! ## Data model -/

/-- ExpiredItem represents an expired item returned from the Watcher. -/
structure ExpiredItem where
  ExpirationTimeSeconds : Int
  ID : String
deriving DecidableEq, Repr

/-- One node of the time index: a timestamp key and the ids that share it. -/
abbrev Entry := Int × Finset String

/-- Keys ascend strictly along the list: the in-order traversal of a search tree. -/
def Ascending (l : List Entry) : Prop := l.Pairwise (fun a b => a.1 < b.1)

/-- Insertion into the in-order list: replaces the value of an existing key. -/
def insertEntry (k : Int) (v : Finset String) : List Entry → List Entry
  | [] => [(k, v)]
  | (k', v') :: rest =>
    if k < k' then (k, v) :: (k', v') :: rest
    else if k = k' then (k, v) :: rest
    else (k', v') :: insertEntry k v rest

/-- Lookup of a key in the in-order list. -/
def getEntry (k : Int) : List Entry → Option (Finset String)
  | [] => none
  | (k', v) :: rest => if k = k' then some v else getEntry k rest

/-- Removal of a key from the in-order list. -/
def deleteEntry (k : Int) (l : List Entry) : List Entry :=
  l.filter (fun e => decide (e.1 ≠ k))

theorem mem_insertEntry {k : Int} {v : Finset String} {l : List Entry} {e : Entry}
    (h : e ∈ insertEntry k v l) : e = (k, v) ∨ e ∈ l := by
  induction l with
  | nil => simpa [insertEntry] using h
  | cons hd tl ih =>
    obtain ⟨k', v'⟩ := hd
    unfold insertEntry at h
    split_ifs at h with h1 h2
    · rcases List.mem_cons.1 h with h | h
      · exact Or.inl h
      · exact Or.inr h
    · rcases List.mem_cons.1 h with h | h
      · exact Or.inl h
      · exact Or.inr (List.mem_cons_of_mem _ h)
    · rcases List.mem_cons.1 h with h | h
      · exact Or.inr (h ▸ List.mem_cons_self _ _)
      · rcases ih h with h | h
        · exact Or.inl h
        · exact Or.inr (List.mem_cons_of_mem _ h)

theorem ascending_insertEntry (k : Int) (v : Finset String) {l : List Entry}
    (h : Ascending l) : Ascending (insertEntry k v l) := by
  induction l with
  | nil => simp [insertEntry, Ascending]
  | cons hd tl ih =>
    obtain ⟨k', v'⟩ := hd
    have hhd := (List.pairwise_cons.1 h).1
    have htl : Ascending tl := (List.pairwise_cons.1 h).2
    unfold insertEntry
    split_ifs with h1 h2
    · refine List.pairwise_cons.2 ⟨?_, h⟩
      intro e he
      rcases List.mem_cons.1 he with he | he
      · subst he; exact h1
      · exact lt_trans h1 (hhd e he)
    · subst h2
      exact List.pairwise_cons.2 ⟨hhd, htl⟩
    · refine List.pairwise_cons.2 ⟨?_, ih htl⟩
      intro e he
      rcases mem_insertEntry he with he | he
      · subst he
        show k' < k
        omega
      · exact hhd e he

theorem ascending_deleteEntry (k : Int) {l : List Entry} (h : Ascending l) :
    Ascending (deleteEntry k l) :=
  List.Pairwise.filter _ h

/-- Modelled from the spec: the ordered time index (`rbt.RbTree` of
`github.com/ocdogan/rbt`, a dependency whose code is not in the repository):
an ordered mapping from `int64` keys to id sets, kept here as its in-order
traversal, the keys strictly ascending. -/
structure RbTree where
  entries : List Entry
  ascending : Ascending entries

namespace RbTree

/-- Modelled from the spec: `rbt.NewRbTree()` allocates an empty index. -/
def NewRbTree : RbTree := ⟨[], List.Pairwise.nil⟩

/-- Modelled from the spec: `Get(key) → (set, found)`. -/
def Get (t : RbTree) (key : Int) : Option (Finset String) := getEntry key t.entries

/-- Modelled from the spec: `Insert(key, set)` replaces or creates the set at `key`. -/
def Insert (t : RbTree) (key : Int) (value : Finset String) : RbTree :=
  ⟨insertEntry key value t.entries, ascending_insertEntry key value t.ascending⟩

/-- Modelled from the spec: `DeleteKey(key)` removes the key and its set entirely. -/
def Delete (t : RbTree) (key : Int) : RbTree :=
  ⟨deleteEntry key t.entries, ascending_deleteEntry key t.ascending⟩

/-- Modelled from the spec: `Minimum() → (key, set, found)` returns the smallest
key present and its set, or not-found when the index is empty. -/
def Min (t : RbTree) : Option (Int × Finset String) := t.entries.head?

end RbTree

/-- Modelled from the spec: the order in which `for id := range ids` visits a Go
map is unspecified; a `MapRange` is one such enumeration, visiting every member
of the set exactly once. -/
structure MapRange where
  order : Finset String → List String
  nodup : ∀ s, (order s).Nodup
  mem : ∀ s x, x ∈ order s ↔ x ∈ s

/-- Modelled from the spec: an instant of Go's `time` package (standard library),
as whole seconds since the Unix epoch and the nanoseconds `0 ≤ nsec < 10^9`
within that second. -/
structure Time where
  sec : Int
  nsec : Int
  nsec_nonneg : 0 ≤ nsec
  nsec_lt : nsec < 1000000000

/-- Go's truncating remainder by `10^9` stays above `-10^9`. -/
theorem neg_lt_tmod (d : Int) : -1000000000 < d.tmod 1000000000 := by
  rcases d with n | n
  · have : (0 : Int) ≤ (Int.ofNat n).tmod 1000000000 :=
      Int.tmod_nonneg _ (Int.ofNat_nonneg n)
    omega
  · show -1000000000 < -Int.ofNat ((n + 1) % 1000000000)
    have : (n + 1) % 1000000000 < 1000000000 := Nat.mod_lt _ (by decide)
    simp only [Int.ofNat_eq_coe]
    omega

namespace Time

/-- Modelled from the spec: `Time.Add(d)` of Go's `time` package: the duration
is split with Go's truncating `d / 1e9` and `d % 1e9`, and the nanosecond field
is brought back into `[0, 10^9)`. The instants of a wall clock are far from the
ends of the `int64` second counter, whose saturation is left out. -/
def Add (t : Time) (d : Int) : Time :=
  let dsec := d.tdiv 1000000000
  let nsec := t.nsec + d.tmod 1000000000
  if h1 : nsec ≥ 1000000000 then
    ⟨t.sec + (dsec + 1), nsec - 1000000000, by omega, by
      have : d.tmod 1000000000 < 1000000000 := Int.tmod_lt_of_pos d (by decide)
      have := t.nsec_lt
      omega⟩
  else if h2 : nsec < 0 then
    ⟨t.sec + (dsec - 1), nsec + 1000000000, by
      have := neg_lt_tmod d
      have := t.nsec_nonneg
      omega, by omega⟩
  else
    ⟨t.sec + dsec, nsec, by omega, by omega⟩

/-- Modelled from the spec: `Time.Unix()`, the whole seconds since the epoch. -/
def Unix (t : Time) : Int := t.sec

/-- Modelled from the spec: `Time.UnixNano()`, the nanoseconds since the epoch. -/
def UnixNano (t : Time) : Int := t.sec * 1000000000 + t.nsec

end Time

/-- Watcher watches the expiration of items. The channel `expiredItems` is its
pending batches and whether it was closed; `pollers` holds the polling interval
of every polling goroutine `Start` has spawned. -/
structure Watcher where
  expiredItems : List (List ExpiredItem)
  expiredItemsClosed : Bool
  rbTree : RbTree
  expirationBuffer : Int
  isWatching : Bool
  wasStartedOnce : Bool
  pollers : List Int

/-- New instantiates a new expiration watcher with the given expiration buffer. -/
def New (expirationBuffer : Int) : Watcher where
  expiredItems := []
  expiredItemsClosed := false
  rbTree := RbTree.NewRbTree
  expirationBuffer := expirationBuffer
  isWatching := false
  wasStartedOnce := false
  pollers := []

namespace Watcher

/-- Add adds a new item identified by an ID to the expiration watcher. -/
def Add (w : Watcher) (expirationTimeSeconds : Int) (id : String) : Watcher :=
  let key := expirationTimeSeconds
  match w.rbTree.Get key with
  | none => { w with rbTree := w.rbTree.Insert key {id} }
  | some ids => { w with rbTree := w.rbTree.Insert key (insert id ids) }

/-- Remove removes the item with a specified id from the expiration watcher. -/
def Remove (w : Watcher) (expirationTimeSeconds : Int) (id : String) : Watcher :=
  let key := expirationTimeSeconds
  match w.rbTree.Get key with
  | none => w
  | some value =>
    let ids := value.erase id
    if ids.card = 0 then { w with rbTree := w.rbTree.Delete key }
    else { w with rbTree := w.rbTree.Insert key ids }

/-- Start starts the expiration watchers poller: the error it returns (`none`
for `nil`) and the state it leaves. -/
def Start (w : Watcher) (pollingInterval : Int) : Option String × Watcher :=
  if w.isWatching then
    (some "Expiration watcher already started", w)
  else if w.wasStartedOnce then
    (some "Can only start Watcher once per instance", w)
  else
    (none, { w with isWatching := true, wasStartedOnce := true,
                    pollers := w.pollers ++ [pollingInterval] })

/-- Stop stops the expiration watchers poller. -/
def Stop (w : Watcher) : Watcher :=
  { w with isWatching := false }

/-- The loop of `prune`: `clock i` is what `time.Now()` reads in the `i`-th
iteration, `pruned` the items gathered so far, `t` the index. -/
def pruneLoop (r : MapRange) (expirationBuffer : Int) (clock : Nat → Time) (i : Nat)
    (t : RbTree) (pruned : List ExpiredItem) : List ExpiredItem × RbTree :=
  match h : t.Min with
  | none => (pruned, t)
  | some (key, value) =>
    let expirationTimeSeconds := key
    let currentTimePlusBuffer := (clock i).Add expirationBuffer
    if expirationTimeSeconds > currentTimePlusBuffer.Unix then (pruned, t)
    else
      pruneLoop r expirationBuffer clock (i + 1) (t.Delete key)
        (pruned ++ (r.order value).map (fun id => ⟨expirationTimeSeconds, id⟩))
termination_by t.entries.length
decreasing_by
  obtain ⟨l, hl⟩ := t
  cases l with
  | nil => simp [RbTree.Min] at h
  | cons hd tl =>
    simp only [RbTree.Min, List.head?_cons, Option.some.injEq] at h
    subst h
    simp only [RbTree.Delete, deleteEntry, List.length_cons]
    rw [List.filter_cons_of_neg (by simp)]
    exact Nat.lt_succ_of_le (List.length_filter_le _ _)

/-- The method `prune` checks for any expired items, removes them from the
expiration watcher and returns them to the caller. -/
def prune (w : Watcher) (r : MapRange) (clock : Nat → Time) : List ExpiredItem × Watcher :=
  let res := pruneLoop r w.expirationBuffer clock 0 w.rbTree []
  (res.1, { w with rbTree := res.2 })

end Watcher

/-! ## Vocabulary of the properties -/

/-- The watcher tracks `id` at the timestamp `ts`: `ts` is a key of the index
and `id` is in the set stored there. -/
def Watcher.tracks (w : Watcher) (ts : Int) (id : String) : Prop :=
  ∃ ids, w.rbTree.Get ts = some ids ∧ id ∈ ids

/-- The items one index entry contributes to a batch. -/
def emit (r : MapRange) (e : Entry) : List ExpiredItem :=
  (r.order e.2).map (fun id => ⟨e.1, id⟩)

/-- The entry is due at the threshold `thr` (whole Unix seconds). -/
def due (thr : Int) (e : Entry) : Bool := decide (e.1 ≤ thr)

/-- One call of the watcher's methods by a caller or by the poller. -/
inductive Op where
  | add (expirationTimeSeconds : Int) (id : String)
  | remove (expirationTimeSeconds : Int) (id : String)
  | prune (r : MapRange) (clock : Nat → Time)
  | start (pollingInterval : Int)
  | stop

/-- The state a call leaves. -/
def Watcher.step (w : Watcher) : Op → Watcher
  | Op.add ts id => w.Add ts id
  | Op.remove ts id => w.Remove ts id
  | Op.prune r clock => (w.prune r clock).2
  | Op.start p => (w.Start p).2
  | Op.stop => w.Stop

/-- The state a sequence of calls leaves. -/
def Watcher.run (w : Watcher) (ops : List Op) : Watcher := ops.foldl Watcher.step w

/-- The errors the `Start` calls of a sequence of calls return, in order
(`none` is Go's `nil`). -/
def startResults : Watcher → List Op → List (Option String)
  | _, [] => []
  | w, Op.start p :: ops => (w.Start p).1 :: startResults (w.Start p).2 ops
  | w, Op.add ts id :: ops => startResults (w.Add ts id) ops
  | w, Op.remove ts id :: ops => startResults (w.Remove ts id) ops
  | w, Op.prune r clock :: ops => startResults (w.prune r clock).2 ops
  | w, Op.stop :: ops => startResults w.Stop ops

/-- The states a watcher made by `New` reaches through calls of its methods. -/
def Reachable (w : Watcher) : Prop := ∃ B ops, w = (New B).run ops

/-- The id set associated with the timestamp `ts`: the set stored at the key
`ts`, and the empty set when `ts` is not a key. -/
def Watcher.idsAt (w : Watcher) (ts : Int) : Finset String :=
  (w.rbTree.Get ts).getD ∅

/-- No key of the index maps to an empty id set. -/
def NoEmpty (w : Watcher) : Prop := ∀ e ∈ w.rbTree.entries, e.2.Nonempty

/-- The instant `sec` whole seconds after the Unix epoch (Go's `time.Unix(sec, 0)`). -/
def Time.ofSeconds (sec : Int) : Time := ⟨sec, 0, by decide, by decide⟩

/-- The enumeration of a set in ascending order of its ids, one `MapRange`. -/
def sortedRange : MapRange where
  order := fun s => s.sort (fun a b => a ≤ b)
  nodup := fun s => Finset.sort_nodup _ s
  mem := fun s x => by simp

/-! ## The poller and the output queue -/

/-- The capacity of the channel `expiredItems` that `New` makes
(`make(chan []ExpiredItem, 10)`). -/
def queueCapacity : Nat := 10

/-- Where a polling goroutine spawned by `Start` stands: `waiting` at
`<-ticker.C`, `sending batch` blocked at `w.expiredItems <- batch` on a full
queue, or `returned` after `close(w.expiredItems)`. -/
inductive Poller where
  | waiting
  | sending (batch : List ExpiredItem)
  | returned
deriving DecidableEq

/-- The goroutine is blocked in a send. -/
def Poller.isSending : Poller → Bool
  | Poller.sending _ => true
  | _ => false

/-- The watcher with its polling goroutines and the consumer of `Receive()`:
`received` are the batches the consumer has got; `closes` counts the
`close(w.expiredItems)` executed and `sendsOnClosed` the sends on the closed
channel (Go panics at the second close and at every send on a closed channel). -/
structure System where
  w : Watcher
  goroutines : List Poller
  received : List (List ExpiredItem)
  closes : Nat
  sendsOnClosed : Nat

/-- The system around a watcher nobody has started or listened to yet. -/
def System.of (w : Watcher) : System := ⟨w, [], [], 0, 0⟩

/-- One step of the system: a call of a method, a tick of the timer of the
`i`-th polling goroutine, or a receive by the consumer. -/
inductive Event where
  | start (pollingInterval : Int)
  | stop
  | add (expirationTimeSeconds : Int) (id : String)
  | remove (expirationTimeSeconds : Int) (id : String)
  | tick (i : Nat) (r : MapRange) (clock : Nat → Time)
  | receive

/-- Go's buffered channel: a receive frees a slot of the full queue, and the
first goroutine blocked in a send puts its batch there and goes on. -/
def wakeSender : List Poller → Option (List ExpiredItem × List Poller)
  | [] => none
  | Poller.sending b :: rest => some (b, Poller.waiting :: rest)
  | p :: rest => (wakeSender rest).map (fun x => (x.1, p :: x.2))

/-- One round of the loop of the goroutine that `Start` spawns, from the tick
it receives: when the watcher is no longer watching it closes the channel and
returns, otherwise it prunes and sends the batch. A goroutine that is not at
`<-ticker.C` lets the tick pass. -/
def System.tick (s : System) (i : Nat) (r : MapRange) (clock : Nat → Time) : System :=
  match s.goroutines[i]? with
  | some Poller.waiting =>
    if s.w.isWatching = false then
      { s with w := { s.w with expiredItemsClosed := true }
               goroutines := s.goroutines.set i Poller.returned
               closes := s.closes + 1
               sendsOnClosed := s.sendsOnClosed +
                 (s.goroutines.filter Poller.isSending).length }
    else
      let res := s.w.prune r clock
      if res.2.expiredItemsClosed = true then
        { s with w := res.2
                 goroutines := s.goroutines.set i Poller.returned
                 sendsOnClosed := s.sendsOnClosed + 1 }
      else if res.2.expiredItems.length < queueCapacity then
        { s with w := { res.2 with expiredItems := res.2.expiredItems ++ [res.1] } }
      else
        { s with w := res.2
                 goroutines := s.goroutines.set i (Poller.sending res.1) }
  | _ => s

/-- The consumer takes the oldest pending batch of `Receive()`; on an empty
queue it waits (or sees the channel closed) and nothing changes. -/
def System.receive (s : System) : System :=
  match s.w.expiredItems with
  | [] => s
  | batch :: rest =>
    match wakeSender s.goroutines with
    | none =>
      { s with w := { s.w with expiredItems := rest }
               received := s.received ++ [batch] }
    | some (b, gs) =>
      { s with w := { s.w with expiredItems := rest ++ [b] }
               goroutines := gs
               received := s.received ++ [batch] }

/-- The state an event leaves. A successful `Start` spawns one goroutine. -/
def System.step (s : System) : Event → System
  | Event.start p =>
    { s with w := (s.w.Start p).2
             goroutines := if (s.w.Start p).1 = none then s.goroutines ++ [Poller.waiting]
                           else s.goroutines }
  | Event.stop => { s with w := s.w.Stop }
  | Event.add ts id => { s with w := s.w.Add ts id }
  | Event.remove ts id => { s with w := s.w.Remove ts id }
  | Event.tick i r clock => s.tick i r clock
  | Event.receive => s.receive

/-- The state a sequence of events leaves. -/
def System.run (s : System) (events : List Event) : System := events.foldl System.step s

/-- Modelled from the spec: what happens at the instant `τ` (in units of time
after `Start`) when the timer of interval `p` ticks at `p, 2p, 3p, ...`, the
consumer takes what each tick delivers, and `Stop` is called at the instant
`t`; a tick due at `t` comes before the `Stop`. -/
def eventsAt (p t : Nat) (r : Nat → MapRange) (clock : Nat → Nat → Time) (τ : Nat) :
    List Event :=
  (if τ % p = 0 then [Event.tick 0 (r τ) (clock τ), Event.receive] else []) ++
    (if τ = t then [Event.stop] else [])

/-- The events of the instants `1, 2, ..., horizon`, in order. -/
def timeline (p t : Nat) (r : Nat → MapRange) (clock : Nat → Nat → Time) :
    Nat → List Event
  | 0 => []
  | h + 1 => timeline p t r clock h ++ eventsAt p t r clock (h + 1)

/-- One round of the loop of `prune` at the grain of its locks: `Min()` is read
under `RLock` and the lock released, the threshold is tested and the ids read
are gathered, and only then `Lock` is taken for `Delete(key)`. `between` are
the calls of other goroutines that get the lock after the ids were gathered
and before `Lock`. -/
def Watcher.pruneRound (w : Watcher) (r : MapRange) (now : Time) (between : List Op) :
    List ExpiredItem × Watcher :=
  match w.rbTree.Min with
  | none => ([], w.run between)
  | some (key, value) =>
    if key > (now.Add w.expirationBuffer).Unix then ([], w.run between)
    else
      ((r.order value).map (fun id => ⟨key, id⟩),
        { w.run between with rbTree := (w.run between).rbTree.Delete key })

/-- What holds of the poller in every state a watcher made by `New` reaches:
nothing was sent on the closed channel, and either the watcher was never
started and has no goroutine, or it was started and its one goroutine runs
with the channel open, or the goroutine has closed the channel, once, and
returned. -/
def System.Inv (s : System) : Prop :=
  s.sendsOnClosed = 0 ∧
  ((s.w.wasStartedOnce = false ∧ s.w.isWatching = false ∧ s.goroutines = [] ∧
      s.w.expiredItemsClosed = false ∧ s.closes = 0) ∨
   (s.w.wasStartedOnce = true ∧ s.w.expiredItemsClosed = false ∧ s.closes = 0 ∧
      ∃ p, s.goroutines = [p] ∧ p ≠ Poller.returned) ∨
   (s.w.wasStartedOnce = true ∧ s.w.isWatching = false ∧
      s.w.expiredItemsClosed = true ∧ s.closes = 1 ∧ s.goroutines = [Poller.returned]))

theorem RbTree.ext_entries {a b : RbTree} (h : a.entries = b.entries) : a = b := by
  cases a; cases b; cases h; rfl

theorem getEntry_insertEntry (k k' : Int) (v : Finset String) (l : List Entry) :
    getEntry k' (insertEntry k v l) = if k' = k then some v else getEntry k' l := by
  induction l with
  | nil => simp [insertEntry, getEntry]
  | cons hd tl ih =>
    obtain ⟨k0, v0⟩ := hd
    unfold insertEntry
    split_ifs <;> simp_all [getEntry]

theorem getEntry_deleteEntry (k k' : Int) (l : List Entry) :
    getEntry k' (deleteEntry k l) = if k' = k then none else getEntry k' l := by
  induction l with
  | nil => simp [deleteEntry, getEntry]
  | cons hd tl ih =>
    obtain ⟨k0, v0⟩ := hd
    by_cases h0 : k0 = k
    · subst h0
      have : deleteEntry k0 ((k0, v0) :: tl) = deleteEntry k0 tl := by
        simp [deleteEntry]
      rw [this, ih]
      by_cases h : k' = k0 <;> simp [getEntry, h]
    · have : deleteEntry k ((k0, v0) :: tl) = (k0, v0) :: deleteEntry k tl := by
        simp [deleteEntry, h0]
      rw [this]
      simp only [getEntry, ih]
      by_cases h : k' = k0
      · have : k' ≠ k := by omega
        simp [h, h0]
      · simp [h]

theorem mem_of_getEntry {k : Int} {v : Finset String} {l : List Entry}
    (h : getEntry k l = some v) : (k, v) ∈ l := by
  induction l with
  | nil => simp [getEntry] at h
  | cons hd tl ih =>
    obtain ⟨k0, v0⟩ := hd
    unfold getEntry at h
    split_ifs at h with h0
    · cases h; subst h0; exact List.mem_cons_self _ _
    · exact List.mem_cons_of_mem _ (ih h)

theorem getEntry_of_mem {k : Int} {v : Finset String} {l : List Entry}
    (hl : Ascending l) (h : (k, v) ∈ l) : getEntry k l = some v := by
  induction l with
  | nil => simp at h
  | cons hd tl ih =>
    obtain ⟨k0, v0⟩ := hd
    have hhd := (List.pairwise_cons.1 hl).1
    unfold getEntry
    rcases List.mem_cons.1 h with h | h
    · cases h; simp
    · have : k0 < k := hhd _ h
      rw [if_neg (by omega)]
      exact ih (List.pairwise_cons.1 hl).2 h

theorem insertEntry_of_getEntry {k : Int} {v : Finset String} {l : List Entry}
    (hl : Ascending l) (h : getEntry k l = some v) : insertEntry k v l = l := by
  induction l with
  | nil => simp [getEntry] at h
  | cons hd tl ih =>
    obtain ⟨k0, v0⟩ := hd
    have hhd := (List.pairwise_cons.1 hl).1
    unfold getEntry at h
    unfold insertEntry
    split_ifs at h with h0
    · cases h; subst h0; simp
    · have : k0 < k := hhd _ (mem_of_getEntry h)
      rw [if_neg (by omega), if_neg h0, ih (List.pairwise_cons.1 hl).2 h]

theorem deleteEntry_head {k : Int} {v : Finset String} {tl : List Entry}
    (hl : Ascending ((k, v) :: tl)) : deleteEntry k ((k, v) :: tl) = tl := by
  have hhd := (List.pairwise_cons.1 hl).1
  unfold deleteEntry
  rw [List.filter_cons_of_neg (by simp)]
  apply List.filter_eq_self.2
  intro e he
  have := hhd e he
  simp only [ne_eq, decide_not, Bool.not_eq_eq_eq_not, Bool.not_true, decide_eq_false_iff_not]
  omega

/-! ## The loop of prune under a clock that stands still -/

theorem pruneLoop_nil (r : MapRange) (B : Int) (clock : Nat → Time) (i : Nat)
    (hl : Ascending []) (acc : List ExpiredItem) :
    Watcher.pruneLoop r B clock i ⟨[], hl⟩ acc = (acc, ⟨[], hl⟩) := by
  rw [Watcher.pruneLoop]
  split
  · rfl
  · rename_i h
    simp [RbTree.Min] at h

theorem pruneLoop_cons (r : MapRange) (B : Int) (clock : Nat → Time) (i : Nat)
    (k : Int) (v : Finset String) (tl : List Entry)
    (hl : Ascending ((k, v) :: tl)) (acc : List ExpiredItem) :
    Watcher.pruneLoop r B clock i ⟨(k, v) :: tl, hl⟩ acc =
      if k > ((clock i).Add B).Unix then (acc, ⟨(k, v) :: tl, hl⟩)
      else Watcher.pruneLoop r B clock (i + 1) ⟨tl, (List.pairwise_cons.1 hl).2⟩
        (acc ++ emit r (k, v)) := by
  rw [Watcher.pruneLoop]
  split
  · rename_i h
    simp [RbTree.Min] at h
  · rename_i key value h
    simp only [RbTree.Min, List.head?_cons, Option.some.injEq, Prod.mk.injEq] at h
    obtain ⟨h1, h2⟩ := h
    subst h1 h2
    have hd : RbTree.Delete ⟨(k, v) :: tl, hl⟩ k = ⟨tl, (List.pairwise_cons.1 hl).2⟩ :=
      RbTree.ext_entries (deleteEntry_head hl)
    simp only [hd, emit]

theorem pruneLoop_fst (r : MapRange) (B : Int) (now : Time) (l : List Entry) :
    ∀ (hl : Ascending l) (i : Nat) (acc : List ExpiredItem),
      (Watcher.pruneLoop r B (fun _ => now) i ⟨l, hl⟩ acc).1 =
        acc ++ (l.takeWhile (due (now.Add B).Unix)).flatMap (emit r) := by
  induction l with
  | nil => intro hl i acc; simp [pruneLoop_nil]
  | cons hd tl ih =>
    intro hl i acc
    obtain ⟨k, v⟩ := hd
    rw [pruneLoop_cons]
    by_cases h : k > (now.Add B).Unix
    · have : due (now.Add B).Unix (k, v) = false := by simp [due]; omega
      simp [h, List.takeWhile_cons, this]
    · have : due (now.Add B).Unix (k, v) = true := by simp [due]; omega
      simp [h, List.takeWhile_cons, this, ih]

theorem pruneLoop_snd (r : MapRange) (B : Int) (now : Time) (l : List Entry) :
    ∀ (hl : Ascending l) (i : Nat) (acc : List ExpiredItem),
      (Watcher.pruneLoop r B (fun _ => now) i ⟨l, hl⟩ acc).2.entries =
        l.dropWhile (due (now.Add B).Unix) := by
  induction l with
  | nil => intro hl i acc; simp [pruneLoop_nil]
  | cons hd tl ih =>
    intro hl i acc
    obtain ⟨k, v⟩ := hd
    rw [pruneLoop_cons]
    by_cases h : k > (now.Add B).Unix
    · have : due (now.Add B).Unix (k, v) = false := by simp [due]; omega
      simp [h, List.dropWhile_cons, this]
    · have : due (now.Add B).Unix (k, v) = true := by simp [due]; omega
      simp [h, List.dropWhile_cons, this, ih]

theorem not_due_of_head {thr : Int} {hd : Entry} {tl : List Entry}
    (hl : Ascending (hd :: tl)) (h : due thr hd = false) : ∀ e ∈ tl, due thr e = false := by
  intro e he
  have := (List.pairwise_cons.1 hl).1 e he
  simp only [due, decide_eq_false_iff_not] at h ⊢
  omega

theorem takeWhile_due (thr : Int) {l : List Entry} (hl : Ascending l) :
    l.takeWhile (due thr) = l.filter (due thr) := by
  induction l with
  | nil => rfl
  | cons hd tl ih =>
    by_cases h : due thr hd = true
    · rw [List.takeWhile_cons_of_pos h, List.filter_cons_of_pos h,
        ih (List.pairwise_cons.1 hl).2]
    · have h0 : due thr hd = false := by simpa using h
      have hnil : tl.filter (due thr) = [] :=
        List.filter_eq_nil_iff.2 (fun e he => by simp [not_due_of_head hl h0 e he])
      rw [List.takeWhile_cons_of_neg h, List.filter_cons_of_neg h, hnil]

theorem dropWhile_due (thr : Int) {l : List Entry} (hl : Ascending l) :
    l.dropWhile (due thr) = l.filter (fun e => !due thr e) := by
  induction l with
  | nil => rfl
  | cons hd tl ih =>
    by_cases h : due thr hd = true
    · rw [List.dropWhile_cons_of_pos h, List.filter_cons_of_neg (by simp [h]),
        ih (List.pairwise_cons.1 hl).2]
    · have h0 : due thr hd = false := by simpa using h
      have hall : tl.filter (fun e => !due thr e) = tl :=
        List.filter_eq_self.2 (fun e he => by simp [not_due_of_head hl h0 e he])
      rw [List.dropWhile_cons_of_neg h, List.filter_cons_of_pos (by simp [h0]), hall]

theorem mem_emit {r : MapRange} {e : Entry} {item : ExpiredItem} :
    item ∈ emit r e ↔ item.ExpirationTimeSeconds = e.1 ∧ item.ID ∈ e.2 := by
  obtain ⟨ts, id⟩ := item
  simp only [emit, List.mem_map, ExpiredItem.mk.injEq, r.mem]
  constructor
  · rintro ⟨a, ha, h1, h2⟩
    exact ⟨h1.symm, h2 ▸ ha⟩
  · rintro ⟨h1, h2⟩
    exact ⟨id, h2, h1.symm, rfl⟩

theorem nodup_emit (r : MapRange) (e : Entry) : (emit r e).Nodup := by
  apply List.Nodup.map _ (r.nodup e.2)
  intro a b h
  exact (ExpiredItem.mk.inj h).2

theorem nodup_flatMap_emit (r : MapRange) {l : List Entry} (hl : Ascending l) :
    (l.flatMap (emit r)).Nodup := by
  refine List.nodup_flatMap.2 ⟨fun e _ => nodup_emit r e, ?_⟩
  refine List.Pairwise.imp ?_ hl
  intro a b hab item ha hb
  have h1 := (mem_emit.1 ha).1
  have h2 := (mem_emit.1 hb).1
  omega

theorem pairwise_flatMap_emit (r : MapRange) {l : List Entry} (hl : Ascending l) :
    (l.flatMap (emit r)).Pairwise
      (fun a b => a.ExpirationTimeSeconds ≤ b.ExpirationTimeSeconds) := by
  induction l with
  | nil => simp
  | cons hd tl ih =>
    rw [List.flatMap_cons]
    refine List.pairwise_append.2 ⟨?_, ih (List.pairwise_cons.1 hl).2, ?_⟩
    · refine List.pairwise_iff_forall_sublist.2 ?_
      intro a b hab
      have ha := (mem_emit.1 (hab.subset (List.mem_cons_self _ _))).1
      have hb := (mem_emit.1 (hab.subset
        (List.mem_cons_of_mem _ (List.mem_cons_self _ _)))).1
      omega
    · intro a ha b hb
      obtain ⟨e, he, hbe⟩ := List.mem_flatMap.1 hb
      have h1 := (mem_emit.1 ha).1
      have h2 := (mem_emit.1 hbe).1
      have := (List.pairwise_cons.1 hl).1 e he
      omega

/-- The batch of a prune under a clock that stands still: the items of the
entries that are due, in the order of the index. -/
theorem prune_batch (w : Watcher) (r : MapRange) (now : Time) :
    (w.prune r (fun _ => now)).1 =
      (w.rbTree.entries.filter (due (now.Add w.expirationBuffer).Unix)).flatMap (emit r) := by
  obtain ⟨q, c, ⟨l, hl⟩, B, iw, ws, ps⟩ := w
  simp only [Watcher.prune, pruneLoop_fst, List.nil_append, takeWhile_due _ hl]

/-- The index a prune leaves under a clock that stands still: the entries that
are not due. -/
theorem prune_entries (w : Watcher) (r : MapRange) (now : Time) :
    (w.prune r (fun _ => now)).2.rbTree.entries =
      w.rbTree.entries.filter (fun e => !due (now.Add w.expirationBuffer).Unix e) := by
  obtain ⟨q, c, ⟨l, hl⟩, B, iw, ws, ps⟩ := w
  simp only [Watcher.prune, pruneLoop_snd, dropWhile_due _ hl]

theorem mem_prune_batch (w : Watcher) (r : MapRange) (now : Time) (ts : Int) (id : String) :
    (⟨ts, id⟩ : ExpiredItem) ∈ (w.prune r (fun _ => now)).1 ↔
      w.tracks ts id ∧ ts ≤ (now.Add w.expirationBuffer).Unix := by
  rw [prune_batch, List.mem_flatMap]
  constructor
  · rintro ⟨e, he, hitem⟩
    obtain ⟨he1, he2⟩ := List.mem_filter.1 he
    obtain ⟨h1, h2⟩ := mem_emit.1 hitem
    simp only at h1 h2
    obtain ⟨k, v⟩ := e
    simp only at h1 h2
    subst h1
    exact ⟨⟨v, getEntry_of_mem w.rbTree.ascending he1, h2⟩, by simpa [due] using he2⟩
  · rintro ⟨⟨ids, hget, hid⟩, hle⟩
    refine ⟨(ts, ids), List.mem_filter.2 ⟨mem_of_getEntry hget, by simpa [due] using hle⟩, ?_⟩
    exact mem_emit.2 ⟨rfl, hid⟩

theorem nodup_prune_batch (w : Watcher) (r : MapRange) (now : Time) :
    (w.prune r (fun _ => now)).1.Nodup := by
  rw [prune_batch]
  exact nodup_flatMap_emit r
    (List.Pairwise.sublist (List.filter_sublist _) w.rbTree.ascending)

/-! ## Which pairs a call can make tracked -/

theorem getEntry_filter_key (f : Int → Bool) (k : Int) (l : List Entry) :
    getEntry k (l.filter (fun e => f e.1)) = if f k = true then getEntry k l else none := by
  induction l with
  | nil => simp [getEntry]
  | cons hd tl ih =>
    obtain ⟨k0, v0⟩ := hd
    by_cases h0 : f k0 = true
    · rw [List.filter_cons_of_pos (by simpa using h0)]
      simp only [getEntry, ih]
      by_cases hk : k = k0
      · subst hk; simp [h0]
      · simp [hk]
    · rw [List.filter_cons_of_neg (by simpa using h0), ih]
      simp only [getEntry]
      by_cases hk : k = k0
      · subst hk; simp [h0]
      · simp [hk]

theorem pruneLoop_sublist (r : MapRange) (B : Int) (clock : Nat → Time) (l : List Entry) :
    ∀ (hl : Ascending l) (i : Nat) (acc : List ExpiredItem),
      (Watcher.pruneLoop r B clock i ⟨l, hl⟩ acc).2.entries.Sublist l := by
  induction l with
  | nil => intro hl i acc; simp [pruneLoop_nil]
  | cons hd tl ih =>
    intro hl i acc
    obtain ⟨k, v⟩ := hd
    rw [pruneLoop_cons]
    split_ifs
    · exact List.Sublist.refl _
    · exact List.Sublist.cons _ (ih _ _ _)

theorem prune_sublist (w : Watcher) (r : MapRange) (clock : Nat → Time) :
    (w.prune r clock).2.rbTree.entries.Sublist w.rbTree.entries := by
  obtain ⟨q, c, ⟨l, hl⟩, B, iw, ws, ps⟩ := w
  exact pruneLoop_sublist r B clock l hl 0 []

theorem tracks_of_sublist {w w' : Watcher} (h : w'.rbTree.entries.Sublist w.rbTree.entries)
    {ts : Int} {id : String} (ht : w'.tracks ts id) : w.tracks ts id := by
  obtain ⟨ids, hget, hid⟩ := ht
  exact ⟨ids, getEntry_of_mem w.rbTree.ascending (h.subset (mem_of_getEntry hget)), hid⟩

theorem Add_of_none {w : Watcher} {ts : Int} (id : String) (h : w.rbTree.Get ts = none) :
    w.Add ts id = { w with rbTree := w.rbTree.Insert ts {id} } := by
  simp only [Watcher.Add, h]

theorem Add_of_some {w : Watcher} {ts : Int} (id : String) {ids : Finset String}
    (h : w.rbTree.Get ts = some ids) :
    w.Add ts id = { w with rbTree := w.rbTree.Insert ts (insert id ids) } := by
  simp only [Watcher.Add, h]

theorem Remove_of_none {w : Watcher} {ts : Int} (id : String) (h : w.rbTree.Get ts = none) :
    w.Remove ts id = w := by
  simp only [Watcher.Remove, h]

theorem Remove_of_some {w : Watcher} {ts : Int} (id : String) {ids : Finset String}
    (h : w.rbTree.Get ts = some ids) :
    w.Remove ts id =
      if (ids.erase id).card = 0 then { w with rbTree := w.rbTree.Delete ts }
      else { w with rbTree := w.rbTree.Insert ts (ids.erase id) } := by
  simp only [Watcher.Remove, h]

theorem get_Add (w : Watcher) (ts : Int) (id : String) (k : Int) :
    (w.Add ts id).rbTree.Get k =
      if k = ts then some (match w.rbTree.Get ts with
        | none => {id}
        | some ids => insert id ids)
      else w.rbTree.Get k := by
  cases h : w.rbTree.Get ts with
  | none => rw [Add_of_none id h]; simp only [RbTree.Get, RbTree.Insert, getEntry_insertEntry]
  | some ids =>
    rw [Add_of_some id h]; simp only [RbTree.Get, RbTree.Insert, getEntry_insertEntry]

theorem get_Remove (w : Watcher) (ts : Int) (id : String) (k : Int) :
    (w.Remove ts id).rbTree.Get k =
      if k = ts then (match w.rbTree.Get ts with
        | none => none
        | some ids => if (ids.erase id).card = 0 then none else some (ids.erase id))
      else w.rbTree.Get k := by
  cases h : w.rbTree.Get ts with
  | none =>
    rw [Remove_of_none id h]
    split_ifs with hk
    · rw [hk, h]
    · rfl
  | some ids =>
    rw [Remove_of_some id h]
    simp only
    split_ifs with h0 hk hk
    · simp only [RbTree.Get, RbTree.Delete, getEntry_deleteEntry, if_pos hk]
    · simp only [RbTree.Get, RbTree.Delete, getEntry_deleteEntry, if_neg hk]
    · simp only [RbTree.Get, RbTree.Insert, getEntry_insertEntry, if_pos hk]
    · simp only [RbTree.Get, RbTree.Insert, getEntry_insertEntry, if_neg hk]

theorem tracks_step {w : Watcher} {op : Op} {ts : Int} {id : String}
    (h : (w.step op).tracks ts id) (hop : op ≠ Op.add ts id) : w.tracks ts id := by
  cases op with
  | add ts' id' =>
    obtain ⟨ids, hget, hid⟩ := h
    simp only [Watcher.step, get_Add] at hget
    split_ifs at hget with hk
    · subst hk
      cases hg : w.rbTree.Get ts with
      | none =>
        rw [hg] at hget
        simp only [Option.some.injEq] at hget
        subst hget
        exact absurd (by rw [Finset.mem_singleton.1 hid]) hop
      | some old =>
        rw [hg] at hget
        simp only [Option.some.injEq] at hget
        subst hget
        rcases Finset.mem_insert.1 hid with h1 | h1
        · exact absurd (by rw [h1]) hop
        · exact ⟨old, hg, h1⟩
    · exact ⟨ids, hget, hid⟩
  | remove ts' id' =>
    obtain ⟨ids, hget, hid⟩ := h
    simp only [Watcher.step, get_Remove] at hget
    split_ifs at hget with hk
    · subst hk
      cases hg : w.rbTree.Get ts with
      | none => rw [hg] at hget; simp at hget
      | some old =>
        rw [hg] at hget
        simp only at hget
        split_ifs at hget
        simp only [Option.some.injEq] at hget
        subst hget
        exact ⟨old, hg, Finset.mem_of_mem_erase hid⟩
    · exact ⟨ids, hget, hid⟩
  | prune r clock => exact tracks_of_sublist (prune_sublist w r clock) h
  | start p =>
    obtain ⟨ids, hget, hid⟩ := h
    refine ⟨ids, ?_, hid⟩
    simp only [Watcher.step, Watcher.Start] at hget
    split_ifs at hget <;> exact hget
  | stop => exact h

theorem tracks_run {ts : Int} {id : String} (ops : List Op) :
    ∀ {w : Watcher}, (w.run ops).tracks ts id → Op.add ts id ∉ ops → w.tracks ts id := by
  induction ops with
  | nil => intro w h _; exact h
  | cons op rest ih =>
    intro w h hnot
    have h1 : ((w.step op).run rest).tracks ts id := h
    have h2 := ih h1 (fun hm => hnot (List.mem_cons_of_mem _ hm))
    exact tracks_step h2 (fun he => hnot (he ▸ List.mem_cons_self _ _))

theorem not_tracks_after_prune (w : Watcher) (r : MapRange) (now : Time) (ts : Int)
    (id : String) (hle : ts ≤ (now.Add w.expirationBuffer).Unix) :
    ¬ (w.prune r (fun _ => now)).2.tracks ts id := by
  rintro ⟨ids, hget, _⟩
  have he := prune_entries w r now
  unfold RbTree.Get at hget
  rw [he] at hget
  have := getEntry_filter_key (fun k => !decide (k ≤ (now.Add w.expirationBuffer).Unix))
    ts w.rbTree.entries
  simp only [due] at hget
  rw [this] at hget
  simp [hle] at hget

/-! ## Reachable states hold no empty id set -/

theorem noEmpty_step {w : Watcher} (op : Op) (h : NoEmpty w) : NoEmpty (w.step op) := by
  cases op with
  | add ts id =>
    intro e he
    simp only [Watcher.step] at he
    cases hg : w.rbTree.Get ts with
    | none =>
      rw [Add_of_none id hg] at he
      rcases mem_insertEntry he with h1 | h1
      · subst h1; exact Finset.singleton_nonempty id
      · exact h e h1
    | some ids =>
      rw [Add_of_some id hg] at he
      rcases mem_insertEntry he with h1 | h1
      · subst h1; exact Finset.insert_nonempty id ids
      · exact h e h1
  | remove ts id =>
    intro e he
    simp only [Watcher.step] at he
    cases hg : w.rbTree.Get ts with
    | none =>
      rw [Remove_of_none id hg] at he
      exact h e he
    | some ids =>
      rw [Remove_of_some id hg] at he
      split_ifs at he with h0
      · exact h e (List.mem_of_mem_filter he)
      · rcases mem_insertEntry he with h1 | h1
        · subst h1; exact Finset.card_ne_zero.1 h0
        · exact h e h1
  | prune r clock =>
    intro e he
    exact h e ((prune_sublist w r clock).subset he)
  | start p =>
    intro e he
    simp only [Watcher.step, Watcher.Start] at he
    split_ifs at he <;> exact h e he
  | stop => exact h

theorem noEmpty_run (ops : List Op) : ∀ {w : Watcher}, NoEmpty w → NoEmpty (w.run ops) := by
  induction ops with
  | nil => intro w h; exact h
  | cons op rest ih => intro w h; exact ih (noEmpty_step op h)

theorem noEmpty_of_reachable {w : Watcher} (h : Reachable w) : NoEmpty w := by
  obtain ⟨B, ops, rfl⟩ := h
  apply noEmpty_run
  intro e he
  simp [New, RbTree.NewRbTree] at he

/-! ## The lifecycle flags -/

theorem flags_step (w : Watcher) (op : Op) (hop : ∀ p, op ≠ Op.start p) :
    (w.step op).wasStartedOnce = w.wasStartedOnce ∧
      ((w.step op).isWatching = true → w.isWatching = true) := by
  cases op with
  | add ts id =>
    cases hg : w.rbTree.Get ts with
    | none => rw [Watcher.step, Add_of_none id hg]; exact ⟨rfl, fun h => h⟩
    | some ids => rw [Watcher.step, Add_of_some id hg]; exact ⟨rfl, fun h => h⟩
  | remove ts id =>
    cases hg : w.rbTree.Get ts with
    | none => rw [Watcher.step, Remove_of_none id hg]; exact ⟨rfl, fun h => h⟩
    | some ids =>
      rw [Watcher.step, Remove_of_some id hg]
      split_ifs <;> exact ⟨rfl, fun h => h⟩
  | prune r clock => exact ⟨rfl, fun h => h⟩
  | start p => exact absurd rfl (hop p)
  | stop => exact ⟨rfl, fun h => by simp [Watcher.step, Watcher.Stop] at h⟩

theorem startResults_step (w : Watcher) (op : Op) (ops : List Op)
    (hop : ∀ p, op ≠ Op.start p) :
    startResults w (op :: ops) = startResults (w.step op) ops := by
  cases op with
  | start p => exact absurd rfl (hop p)
  | add ts id => rfl
  | remove ts id => rfl
  | prune r clock => rfl
  | stop => rfl

theorem startResults_started (ops : List Op) :
    ∀ (w : Watcher), w.wasStartedOnce = true → ∀ e ∈ startResults w ops, e ≠ none := by
  induction ops with
  | nil => intro w _ e he; simp [startResults] at he
  | cons op rest ih =>
    intro w hw e he
    by_cases hop : ∃ p, op = Op.start p
    · obtain ⟨p, rfl⟩ := hop
      simp only [startResults, List.mem_cons] at he
      have hs : (w.Start p).2.wasStartedOnce = true := by
        unfold Watcher.Start; split_ifs <;> simp [hw]
      rcases he with he | he
      · subst he
        unfold Watcher.Start
        split_ifs
        · simp
        · simp
      · exact ih _ hs e he
    · have hop' : ∀ p, op ≠ Op.start p := fun p h => hop ⟨p, h⟩
      rw [startResults_step w op rest hop'] at he
      exact ih _ ((flags_step w op hop').1.trans hw) e he

theorem startResults_fresh (ops : List Op) :
    ∀ (w : Watcher), w.isWatching = false → w.wasStartedOnce = false →
      startResults w ops = [] ∨
        ∃ rest, startResults w ops = none :: rest ∧ ∀ e ∈ rest, e ≠ none := by
  induction ops with
  | nil => intro w _ _; exact Or.inl rfl
  | cons op rest ih =>
    intro w h1 h2
    by_cases hop : ∃ p, op = Op.start p
    · obtain ⟨p, rfl⟩ := hop
      refine Or.inr ⟨startResults (w.Start p).2 rest, ?_, ?_⟩
      · simp [startResults, Watcher.Start, h1, h2]
      · apply startResults_started
        simp [Watcher.Start, h1, h2]
    · have hop' : ∀ p, op ≠ Op.start p := fun p h => hop ⟨p, h⟩
      rw [startResults_step w op rest hop']
      have hf := flags_step w op hop'
      apply ih
      · cases hb : (w.step op).isWatching with
        | false => rfl
        | true => rw [hf.2 hb] at h1; cases h1
      · exact hf.1.trans h2

/-! ## The clock -/

theorem Time.unixNano_add (t : Time) (d : Int) : (t.Add d).UnixNano = t.UnixNano + d := by
  have h := Int.tmod_add_tdiv d 1000000000
  unfold Time.Add Time.UnixNano
  simp only
  split_ifs <;> simp only <;> omega

theorem Time.le_unix_iff (t : Time) (e : Int) :
    e ≤ t.Unix ↔ e * 1000000000 ≤ t.UnixNano := by
  have h1 := t.nsec_nonneg
  have h2 := t.nsec_lt
  unfold Time.Unix Time.UnixNano
  omega

/-! ## The loop of prune under a clock that moves -/

/-- Whatever the clock reads in each round, the loop takes a prefix of the
index: the batch is the items of the first `n` entries and the index left is
the rest. -/
theorem pruneLoop_take (r : MapRange) (B : Int) (clock : Nat → Time) (l : List Entry) :
    ∀ (hl : Ascending l) (i : Nat) (acc : List ExpiredItem),
      ∃ n, (Watcher.pruneLoop r B clock i ⟨l, hl⟩ acc).1 =
          acc ++ (l.take n).flatMap (emit r) ∧
        (Watcher.pruneLoop r B clock i ⟨l, hl⟩ acc).2.entries = l.drop n := by
  induction l with
  | nil =>
    intro hl i acc
    exact ⟨0, by simp [pruneLoop_nil]⟩
  | cons hd tl ih =>
    intro hl i acc
    obtain ⟨k, v⟩ := hd
    rw [pruneLoop_cons]
    by_cases h : k > ((clock i).Add B).Unix
    · exact ⟨0, by simp [h]⟩
    · obtain ⟨n, h1, h2⟩ := ih (List.pairwise_cons.1 hl).2 (i + 1) (acc ++ emit r (k, v))
      refine ⟨n + 1, ?_, ?_⟩
      · rw [if_neg h, h1]
        simp [List.flatMap_cons]
      · rw [if_neg h, h2]
        rfl

theorem prune_batch_take (w : Watcher) (r : MapRange) (clock : Nat → Time) :
    ∃ n, (w.prune r clock).1 = (w.rbTree.entries.take n).flatMap (emit r) ∧
      (w.prune r clock).2.rbTree.entries = w.rbTree.entries.drop n := by
  obtain ⟨q, c, ⟨l, hl⟩, B, iw, ws, ps⟩ := w
  obtain ⟨n, h1, h2⟩ := pruneLoop_take r B clock l hl 0 []
  exact ⟨n, by simpa [Watcher.prune] using h1, by simpa [Watcher.prune] using h2⟩

theorem pairwise_prune_batch_any (w : Watcher) (r : MapRange) (clock : Nat → Time) :
    (w.prune r clock).1.Pairwise
      (fun a b => a.ExpirationTimeSeconds ≤ b.ExpirationTimeSeconds) := by
  obtain ⟨n, h, _⟩ := prune_batch_take w r clock
  rw [h]
  exact pairwise_flatMap_emit r
    (List.Pairwise.sublist (List.take_sublist _ _) w.rbTree.ascending)

theorem nodup_prune_batch_any (w : Watcher) (r : MapRange) (clock : Nat → Time) :
    (w.prune r clock).1.Nodup := by
  obtain ⟨n, h, _⟩ := prune_batch_take w r clock
  rw [h]
  exact nodup_flatMap_emit r
    (List.Pairwise.sublist (List.take_sublist _ _) w.rbTree.ascending)

/-! ## Claims -/

/-- C1: under a clock that stands still at `now`, the batch `prune` returns
contains exactly the pairs `(ts, id)` the index tracks with
`ts ≤ Unix-seconds(now + buffer)`: each of them occurs exactly once, and every
item of the batch is such a pair, so none has `ts` above the threshold. This
holds in every state of the watcher, the reachable ones included. -/
theorem prune_returns_exactly_the_due_items (w : Watcher) (r : MapRange) (now : Time) :
    (∀ ts id, w.tracks ts id → ts ≤ (now.Add w.expirationBuffer).Unix →
      (w.prune r (fun _ => now)).1.count ⟨ts, id⟩ = 1) ∧
    (∀ item ∈ (w.prune r (fun _ => now)).1,
      w.tracks item.ExpirationTimeSeconds item.ID ∧
        item.ExpirationTimeSeconds ≤ (now.Add w.expirationBuffer).Unix) ∧
    (∀ item ∈ (w.prune r (fun _ => now)).1,
      ¬ item.ExpirationTimeSeconds > (now.Add w.expirationBuffer).Unix) := by
  refine ⟨?_, ?_, ?_⟩
  · intro ts id ht hle
    exact List.count_eq_one_of_mem (nodup_prune_batch w r now)
      ((mem_prune_batch w r now ts id).2 ⟨ht, hle⟩)
  · intro item hitem
    exact (mem_prune_batch w r now item.ExpirationTimeSeconds item.ID).1 hitem
  · intro item hitem
    have := ((mem_prune_batch w r now item.ExpirationTimeSeconds item.ID).1 hitem).2
    omega

/-- C2: buffer semantics. With the clock at `now` (nanosecond precision) and
the signed buffer `B` of the watcher, the pair `(e, id)` is in the batch of
`prune` if and only if it is tracked and `e * 10^9 ≤ now_ns + B_ns`: cutting
`now + B` down to whole Unix seconds before the comparison changes nothing.
The watcher made by `New B` has the buffer `B`. -/
theorem prune_buffer_semantics (w : Watcher) (r : MapRange) (now : Time) (e : Int)
    (id : String) (B : Int) :
    ((⟨e, id⟩ : ExpiredItem) ∈ (w.prune r (fun _ => now)).1 ↔
      w.tracks e id ∧ e * 1000000000 ≤ now.UnixNano + w.expirationBuffer) ∧
    (e ≤ (now.Add B).Unix ↔ e * 1000000000 ≤ now.UnixNano + B) ∧
    (New B).expirationBuffer = B := by
  have key : ∀ d : Int, e ≤ (now.Add d).Unix ↔ e * 1000000000 ≤ now.UnixNano + d := by
    intro d
    rw [Time.le_unix_iff, Time.unixNano_add]
  refine ⟨?_, key B, rfl⟩
  rw [mem_prune_batch, key]

/-- C3: in every state of the index, and whatever the clock reads in each
round of the call, the batch `prune` returns ascends by timestamp: of two
items the earlier one in the batch never has the larger
`ExpirationTimeSeconds`, so an item with a smaller timestamp stands before
every item with a larger one, whatever the order the items were added in. -/
theorem prune_batch_ascending (w : Watcher) (r : MapRange) (clock : Nat → Time) :
    (w.prune r clock).1.Pairwise
      (fun a b => a.ExpirationTimeSeconds ≤ b.ExpirationTimeSeconds) ∧
    (∀ (i j : Nat) (hi : i < (w.prune r clock).1.length)
      (hj : j < (w.prune r clock).1.length),
      ((w.prune r clock).1.get ⟨i, hi⟩).ExpirationTimeSeconds <
        ((w.prune r clock).1.get ⟨j, hj⟩).ExpirationTimeSeconds → i < j) := by
  have hp := pairwise_prune_batch_any w r clock
  refine ⟨hp, ?_⟩
  intro i j hi hj hlt
  by_contra hij
  rcases Nat.lt_or_eq_of_le (Nat.le_of_not_lt hij) with h | h
  · have := List.pairwise_iff_get.1 hp ⟨j, hj⟩ ⟨i, hi⟩ h
    omega
  · subst h
    omega

/-- C4: no double delivery. When a prune at `now1` has returned `(ts, id)` and
the calls that follow (adds, removes, prunes, starts, stops) do not add
`(ts, id)` again, a later prune, at whatever clock reading `now2`, does not
return `(ts, id)`; and a second prune right after the first, at the same clock
reading, returns the empty batch. -/
theorem no_double_delivery (w : Watcher) (r r' : MapRange) (now1 now2 : Time) (ts : Int)
    (id : String) (ops : List Op)
    (h1 : (⟨ts, id⟩ : ExpiredItem) ∈ (w.prune r (fun _ => now1)).1)
    (hops : Op.add ts id ∉ ops) :
    (⟨ts, id⟩ : ExpiredItem) ∉
        (((w.prune r (fun _ => now1)).2.run ops).prune r' (fun _ => now2)).1 ∧
      ((w.prune r (fun _ => now1)).2.prune r' (fun _ => now1)).1 = [] := by
  constructor
  · intro h2
    have ht := ((mem_prune_batch _ r' now2 ts id).1 h2).1
    have hle := ((mem_prune_batch w r now1 ts id).1 h1).2
    exact not_tracks_after_prune w r now1 ts id hle (tracks_run ops ht hops)
  · apply List.eq_nil_iff_forall_not_mem.2
    rintro ⟨ts', id'⟩ h2
    obtain ⟨ht, hle⟩ := (mem_prune_batch _ r' now1 ts' id').1 h2
    exact not_tracks_after_prune w r now1 ts' id' hle ht

/-- C4 at a concrete input: the item `(7, "a")` is pruned at second 10, the
pair `(9, "b")` is added afterwards, and a prune at second 20 does not return
`(7, "a")` again. -/
theorem no_double_delivery_witness :
    (⟨7, "a"⟩ : ExpiredItem) ∈
        (((New 0).Add 7 "a").prune sortedRange (fun _ => Time.ofSeconds 10)).1 ∧
      Op.add 7 "a" ∉ [Op.add 9 "b"] ∧
      ((⟨7, "a"⟩ : ExpiredItem) ∉
          (((((New 0).Add 7 "a").prune sortedRange (fun _ => Time.ofSeconds 10)).2.run
            [Op.add 9 "b"]).prune sortedRange (fun _ => Time.ofSeconds 20)).1 ∧
        ((((New 0).Add 7 "a").prune sortedRange (fun _ => Time.ofSeconds 10)).2.prune
          sortedRange (fun _ => Time.ofSeconds 10)).1 = []) :=
  have h1 : (⟨7, "a"⟩ : ExpiredItem) ∈
      (((New 0).Add 7 "a").prune sortedRange (fun _ => Time.ofSeconds 10)).1 :=
    (mem_prune_batch _ _ _ 7 "a").2 ⟨⟨{"a"}, by decide, by decide⟩, by decide⟩
  have h2 : Op.add 7 "a" ∉ [Op.add 9 "b"] := by simp
  ⟨h1, h2, no_double_delivery _ sortedRange sortedRange (Time.ofSeconds 10)
    (Time.ofSeconds 20) 7 "a" [Op.add 9 "b"] h1 h2⟩

/-- C5: start-once. In every sequence of calls on a watcher made by `New`
(starts and stops, and adds, removes and prunes between them), at most one
`Start` returns success; when there is a `Start` at all, the first one
succeeds and every later one returns an error, with or without a `Stop` in
between. -/
theorem start_succeeds_at_most_once (B : Int) (ops : List Op) :
    (startResults (New B) ops).count none ≤ 1 ∧
      (∀ first rest, startResults (New B) ops = first :: rest →
        first = none ∧ ∀ e ∈ rest, e ≠ none) := by
  rcases startResults_fresh ops (New B) rfl rfl with h | ⟨rest, h, hrest⟩
  · rw [h]
    exact ⟨by simp, fun first rest' hc => by cases hc⟩
  · rw [h]
    constructor
    · have : rest.count none = 0 :=
        List.count_eq_zero_of_not_mem (fun hm => hrest none hm rfl)
      rw [List.count_cons_self, this]
    · intro first rest' hc
      cases hc
      exact ⟨rfl, hrest⟩

/-- C6: the lifecycle state decides what `Start` returns. Called while the
watcher is watching it fails with the "already started" error; called when the
watcher is not watching but was started once (it was stopped) it fails with
the "can only start once" error; called on a watcher that was never started it
succeeds and sets `isWatching` and `wasStartedOnce`. For a watcher made by
`New`: a second `Start` is "already started", a `Start` after `Start; Stop`
is "can only start once". -/
theorem start_result_by_lifecycle (w : Watcher) (p q B : Int) :
    (w.isWatching = true →
      (w.Start p).1 = some "Expiration watcher already started") ∧
    (w.isWatching = false → w.wasStartedOnce = true →
      (w.Start p).1 = some "Can only start Watcher once per instance") ∧
    (w.isWatching = false → w.wasStartedOnce = false →
      (w.Start p).1 = none ∧ (w.Start p).2.isWatching = true ∧
        (w.Start p).2.wasStartedOnce = true) ∧
    (((New B).Start p).2.Start q).1 = some "Expiration watcher already started" ∧
    (((New B).Start p).2.Stop.Start q).1 = some "Can only start Watcher once per instance" := by
  refine ⟨?_, ?_, ?_, rfl, rfl⟩
  · intro h
    simp [Watcher.Start, h]
  · intro h1 h2
    simp [Watcher.Start, h1, h2]
  · intro h1 h2
    simp [Watcher.Start, h1, h2]

/-- C7: a failing `Start` has no side effects. Whenever `Start` returns an
error the whole state after the call (the flags, the time index, the output
queue) is the state before it, and no polling loop was spawned. -/
theorem failing_start_changes_nothing (w : Watcher) (p : Int)
    (h : (w.Start p).1 ≠ none) :
    (w.Start p).2 = w ∧ (w.Start p).2.pollers = w.pollers := by
  unfold Watcher.Start at h ⊢
  split_ifs at h ⊢ with h1 h2
  · exact ⟨rfl, rfl⟩
  · exact ⟨rfl, rfl⟩
  · exact absurd rfl h

/-- C7 at a concrete input: the second `Start` of a watcher fails and leaves
the state of the first. -/
theorem failing_start_changes_nothing_witness :
    ((((New 0).Start 50).2).Start 50).1 ≠ none ∧
      (((((New 0).Start 50).2).Start 50).2 = ((New 0).Start 50).2 ∧
        ((((New 0).Start 50).2).Start 50).2.pollers = (((New 0).Start 50).2).pollers) :=
  ⟨by decide, failing_start_changes_nothing ((New 0).Start 50).2 50 (by decide)⟩

/-- C8: `Remove` of an absent pair is a silent no-op. In every reachable state,
when `ts` is not a key of the index or `id` is not in the set at `ts`,
`Remove(ts, id)` (which returns no error) leaves the watcher, and with it every
key and every set of the index, unchanged. -/
theorem remove_absent_is_noop (w : Watcher) (hw : Reachable w) (ts : Int) (id : String)
    (h : w.rbTree.Get ts = none ∨ ∃ ids, w.rbTree.Get ts = some ids ∧ id ∉ ids) :
    w.Remove ts id = w ∧ ∀ k, (w.Remove ts id).rbTree.Get k = w.rbTree.Get k := by
  have key : w.Remove ts id = w := by
    rcases h with h | ⟨ids, hg, hid⟩
    · exact Remove_of_none id h
    · rw [Remove_of_some id hg, Finset.erase_eq_of_not_mem hid]
      have hne : ids.card ≠ 0 :=
        Finset.card_ne_zero.2 (noEmpty_of_reachable hw (ts, ids) (mem_of_getEntry hg))
      rw [if_neg hne]
      have : w.rbTree.Insert ts ids = w.rbTree :=
        RbTree.ext_entries (insertEntry_of_getEntry w.rbTree.ascending hg)
      rw [this]
  exact ⟨key, fun k => by rw [key]⟩

/-- C8 at a concrete input: the watcher tracks `(7, "a")`; removing `(7, "b")`
changes nothing. -/
theorem remove_absent_is_noop_witness :
    Reachable ((New 0).Add 7 "a") ∧
      (((New 0).Add 7 "a").rbTree.Get 7 = none ∨
        ∃ ids, ((New 0).Add 7 "a").rbTree.Get 7 = some ids ∧ "b" ∉ ids) ∧
      (((New 0).Add 7 "a").Remove 7 "b" = (New 0).Add 7 "a" ∧
        ∀ k, (((New 0).Add 7 "a").Remove 7 "b").rbTree.Get k =
          ((New 0).Add 7 "a").rbTree.Get k) :=
  have hr : Reachable ((New 0).Add 7 "a") := ⟨0, [Op.add 7 "a"], rfl⟩
  have hh : ((New 0).Add 7 "a").rbTree.Get 7 = none ∨
      ∃ ids, ((New 0).Add 7 "a").rbTree.Get 7 = some ids ∧ "b" ∉ ids :=
    Or.inr ⟨{"a"}, by decide, by decide⟩
  ⟨hr, hh, remove_absent_is_noop _ hr 7 "b" hh⟩

/-- C9: the postcondition of `Remove`. When `id` is in the set `ids` at the key
`ts`, after `Remove(ts, id)` the pair `(ts, id)` is no longer tracked; when
`id` was the only member the key `ts` is gone, otherwise `ts` is still a key
and its set is `ids` without `id`; every other key keeps its set. This holds
in every state of the watcher, the reachable ones included. -/
theorem remove_postcondition (w : Watcher) (ts : Int) (id : String) (ids : Finset String)
    (hget : w.rbTree.Get ts = some ids) (hid : id ∈ ids) :
    ¬ (w.Remove ts id).tracks ts id ∧
    (ids = {id} → (w.Remove ts id).rbTree.Get ts = none) ∧
    (ids ≠ {id} → (w.Remove ts id).rbTree.Get ts = some (ids.erase id)) ∧
    (∀ k, k ≠ ts → (w.Remove ts id).rbTree.Get k = w.rbTree.Get k) := by
  have hcard : (ids.erase id).card = 0 ↔ ids = {id} := by
    rw [Finset.card_eq_zero, Finset.erase_eq_empty_iff]
    constructor
    · rintro (h | h)
      · rw [h] at hid; simp at hid
      · exact h
    · exact Or.inr
  have hts : (w.Remove ts id).rbTree.Get ts =
      if (ids.erase id).card = 0 then none else some (ids.erase id) := by
    rw [get_Remove, if_pos rfl, hget]
  refine ⟨?_, ?_, ?_, ?_⟩
  · rintro ⟨s, hs, hmem⟩
    rw [hts] at hs
    split_ifs at hs
    simp only [Option.some.injEq] at hs
    subst hs
    exact Finset.not_mem_erase id ids hmem
  · intro h
    rw [hts, if_pos (hcard.2 h)]
  · intro h
    rw [hts, if_neg (fun hc => h (hcard.1 hc))]
  · intro k hk
    rw [get_Remove, if_neg hk]

/-- C9 at a concrete input: of the two ids at the key 7, `Remove(7, "a")`
leaves `"b"`. -/
theorem remove_postcondition_witness :
    (((New 0).Add 7 "a").Add 7 "b").rbTree.Get 7 = some {"b", "a"} ∧
      "a" ∈ ({"b", "a"} : Finset String) ∧
      (¬ ((((New 0).Add 7 "a").Add 7 "b").Remove 7 "a").tracks 7 "a" ∧
        (({"b", "a"} : Finset String) = {"a"} →
          ((((New 0).Add 7 "a").Add 7 "b").Remove 7 "a").rbTree.Get 7 = none) ∧
        (({"b", "a"} : Finset String) ≠ {"a"} →
          ((((New 0).Add 7 "a").Add 7 "b").Remove 7 "a").rbTree.Get 7 =
            some (({"b", "a"} : Finset String).erase "a")) ∧
        (∀ k, k ≠ 7 → ((((New 0).Add 7 "a").Add 7 "b").Remove 7 "a").rbTree.Get k =
          (((New 0).Add 7 "a").Add 7 "b").rbTree.Get k)) :=
  have hg : (((New 0).Add 7 "a").Add 7 "b").rbTree.Get 7 = some {"b", "a"} := by decide
  have hm : "a" ∈ ({"b", "a"} : Finset String) := by decide
  ⟨hg, hm, remove_postcondition _ 7 "a" {"b", "a"} hg hm⟩

/-- C10: the postcondition of `Add`. In every state of the index, after
`Add(ts, id)`: when `ts` was not a key, `ts` maps to exactly `{id}`; when `ts`
was a key with the set `ids`, `ts` maps to `ids` with `id` added; every other
key keeps its set. -/
theorem add_postcondition (w : Watcher) (ts : Int) (id : String) :
    (w.rbTree.Get ts = none → (w.Add ts id).rbTree.Get ts = some {id}) ∧
    (∀ ids, w.rbTree.Get ts = some ids →
      (w.Add ts id).rbTree.Get ts = some (insert id ids)) ∧
    (∀ k, k ≠ ts → (w.Add ts id).rbTree.Get k = w.rbTree.Get k) := by
  refine ⟨?_, ?_, ?_⟩
  · intro h
    rw [get_Add, if_pos rfl, h]
  · intro ids h
    rw [get_Add, if_pos rfl, h]
  · intro k hk
    rw [get_Add, if_neg hk]

/-! ## The index after a prune, and two prunes in a row -/

theorem prune_of_entries_nil (w : Watcher) (r : MapRange) (clock : Nat → Time)
    (h : w.rbTree.entries = []) : w.prune r clock = ([], w) := by
  obtain ⟨q, c, ⟨l, hl⟩, B, iw, ws, ps⟩ := w
  simp only at h
  subst h
  simp only [Watcher.prune, pruneLoop_nil]

theorem get_prune (w : Watcher) (r : MapRange) (now : Time) (k : Int) :
    (w.prune r (fun _ => now)).2.rbTree.Get k =
      if k ≤ (now.Add w.expirationBuffer).Unix then none else w.rbTree.Get k := by
  unfold RbTree.Get
  rw [prune_entries]
  have := getEntry_filter_key (fun k => !decide (k ≤ (now.Add w.expirationBuffer).Unix))
    k w.rbTree.entries
  simp only [due]
  rw [this]
  by_cases h : k ≤ (now.Add w.expirationBuffer).Unix <;> simp [h]

theorem tracks_prune_iff (w : Watcher) (r : MapRange) (now : Time) (ts : Int) (id : String) :
    (w.prune r (fun _ => now)).2.tracks ts id ↔
      w.tracks ts id ∧ ¬ ts ≤ (now.Add w.expirationBuffer).Unix := by
  unfold Watcher.tracks
  rw [get_prune]
  by_cases h : ts ≤ (now.Add w.expirationBuffer).Unix <;> simp [h]

theorem tracks_Remove_iff (w : Watcher) (ts : Int) (id : String) (ts' : Int) (id' : String) :
    (w.Remove ts id).tracks ts' id' ↔ w.tracks ts' id' ∧ ¬ (ts' = ts ∧ id' = id) := by
  unfold Watcher.tracks
  rw [get_Remove]
  by_cases hk : ts' = ts
  · subst hk
    rw [if_pos rfl]
    cases hg : w.rbTree.Get ts' with
    | none => simp
    | some ids =>
      simp only [Option.some.injEq, exists_eq_left', true_and]
      by_cases hc : (ids.erase id).card = 0
      · rw [if_pos hc]
        have he : ids.erase id = ∅ := Finset.card_eq_zero.1 hc
        constructor
        · rintro ⟨s, hs, _⟩; cases hs
        · rintro ⟨hm, hne⟩
          have : id' ∈ ids.erase id := Finset.mem_erase.2 ⟨hne, hm⟩
          rw [he] at this
          simp at this
      · rw [if_neg hc]
        simp only [Option.some.injEq, exists_eq_left']
        rw [Finset.mem_erase]
        exact ⟨fun h => ⟨h.2, h.1⟩, fun h => ⟨h.2, h.1⟩⟩
  · rw [if_neg hk]
    simp [hk]

theorem Add_frame (w : Watcher) (ts : Int) (id : String) :
    w.Add ts id = { w with rbTree := (w.Add ts id).rbTree } := by
  cases hg : w.rbTree.Get ts with
  | none => rw [Add_of_none id hg]
  | some ids => rw [Add_of_some id hg]

theorem Remove_frame (w : Watcher) (ts : Int) (id : String) :
    w.Remove ts id = { w with rbTree := (w.Remove ts id).rbTree } := by
  cases hg : w.rbTree.Get ts with
  | none => rw [Remove_of_none id hg]
  | some ids => rw [Remove_of_some id hg]; split_ifs <;> rfl

theorem pairwise_prune_batch (w : Watcher) (r : MapRange) (now : Time) :
    (w.prune r (fun _ => now)).1.Pairwise
      (fun a b => a.ExpirationTimeSeconds ≤ b.ExpirationTimeSeconds) := by
  rw [prune_batch]
  exact pairwise_flatMap_emit r
    (List.Pairwise.sublist (List.filter_sublist _) w.rbTree.ascending)

theorem mem_prune_batch_item (w : Watcher) (r : MapRange) (now : Time) (item : ExpiredItem) :
    item ∈ (w.prune r (fun _ => now)).1 ↔
      w.tracks item.ExpirationTimeSeconds item.ID ∧
        item.ExpirationTimeSeconds ≤ (now.Add w.expirationBuffer).Unix :=
  mem_prune_batch w r now item.ExpirationTimeSeconds item.ID

theorem Watcher.ext_fields {a b : Watcher} (h1 : a.expiredItems = b.expiredItems)
    (h2 : a.expiredItemsClosed = b.expiredItemsClosed) (h3 : a.rbTree = b.rbTree)
    (h4 : a.expirationBuffer = b.expirationBuffer) (h5 : a.isWatching = b.isWatching)
    (h6 : a.wasStartedOnce = b.wasStartedOnce) (h7 : a.pollers = b.pollers) : a = b := by
  cases a; cases b; simp_all

theorem filter_due_split {thr1 thr2 : Int} (h : thr1 ≤ thr2) {l : List Entry}
    (hl : Ascending l) :
    l.filter (due thr2) =
      l.filter (due thr1) ++ (l.filter (fun e => !due thr1 e)).filter (due thr2) := by
  induction l with
  | nil => rfl
  | cons e tl ih =>
    by_cases h1 : due thr1 e = true
    · have h2 : due thr2 e = true := by
        simp only [due, decide_eq_true_eq] at h1 ⊢
        omega
      rw [List.filter_cons_of_pos h2, List.filter_cons_of_pos h1,
        List.filter_cons_of_neg (by simp [h1]), ih (List.pairwise_cons.1 hl).2]
      rfl
    · have h0 : due thr1 e = false := by simpa using h1
      have hnil : (e :: tl).filter (due thr1) = [] :=
        List.filter_eq_nil_iff.2 (fun x hx => by
          rcases List.mem_cons.1 hx with hx | hx
          · subst hx; simp [h0]
          · simp [not_due_of_head hl h0 x hx])
      have hall : (e :: tl).filter (fun x => !due thr1 x) = e :: tl :=
        List.filter_eq_self.2 (fun x hx => by
          rcases List.mem_cons.1 hx with hx | hx
          · subst hx; simp [h0]
          · simp [not_due_of_head hl h0 x hx])
      rw [hnil, hall, List.nil_append]

theorem Time.unix_add_mono (now1 now2 : Time) (B : Int)
    (h : now1.UnixNano ≤ now2.UnixNano) : (now1.Add B).Unix ≤ (now2.Add B).Unix := by
  rw [Time.le_unix_iff, Time.unixNano_add]
  have h1 := (Time.le_unix_iff (now1.Add B) (now1.Add B).Unix).1 (le_refl _)
  rw [Time.unixNano_add] at h1
  omega

/-- C11: `Add` is idempotent. In every state, `Add(ts, id); Add(ts, id)` leaves
the same watcher as one `Add(ts, id)`, and a prune that follows, whatever the
clock reads in each of its rounds, reports `(ts, id)` at most once. -/
theorem add_is_idempotent (w : Watcher) (ts : Int) (id : String) (r : MapRange)
    (clock : Nat → Time) :
    (w.Add ts id).Add ts id = w.Add ts id ∧
      (((w.Add ts id).Add ts id).prune r clock).1.count ⟨ts, id⟩ ≤ 1 := by
  have hget : ∃ ids, (w.Add ts id).rbTree.Get ts = some ids ∧ id ∈ ids := by
    rw [get_Add, if_pos rfl]
    cases w.rbTree.Get ts with
    | none => exact ⟨{id}, rfl, Finset.mem_singleton_self id⟩
    | some old => exact ⟨insert id old, rfl, Finset.mem_insert_self id old⟩
  obtain ⟨ids, hg, hid⟩ := hget
  have key : (w.Add ts id).Add ts id = w.Add ts id := by
    rw [Add_of_some id hg, Finset.insert_eq_of_mem hid]
    have : (w.Add ts id).rbTree.Insert ts ids = (w.Add ts id).rbTree :=
      RbTree.ext_entries (insertEntry_of_getEntry (w.Add ts id).rbTree.ascending hg)
    rw [this]
  exact ⟨key, List.nodup_iff_count_le_one.1 (nodup_prune_batch_any _ r clock) _⟩

/-- C12: the time-index invariant. In every state reached from `New` by adds,
removes and prunes (and starts and stops), a key is present in the index if
and only if its associated id set is non-empty: no key maps to the empty set. -/
theorem index_has_no_empty_set (w : Watcher) (hw : Reachable w) :
    (∀ k, (w.rbTree.Get k).isSome = true ↔ (w.idsAt k).Nonempty) ∧
      (∀ k, w.rbTree.Get k ≠ some ∅) := by
  have hne : ∀ k ids, w.rbTree.Get k = some ids → ids.Nonempty :=
    fun k ids hg => noEmpty_of_reachable hw (k, ids) (mem_of_getEntry hg)
  constructor
  · intro k
    unfold Watcher.idsAt
    cases hg : w.rbTree.Get k with
    | none => simp
    | some ids => simpa using hne k ids hg
  · intro k hg
    exact Finset.not_nonempty_empty (hne k ∅ hg)

/-- C12 at a concrete input: the watcher after `Add(7, "a"); Add(7, "b");
Remove(7, "a"); Remove(7, "b"); Add(9, "c")`. -/
theorem index_has_no_empty_set_witness :
    Reachable ((New 0).run
        [Op.add 7 "a", Op.add 7 "b", Op.remove 7 "a", Op.remove 7 "b", Op.add 9 "c"]) ∧
      ((∀ k, (((New 0).run [Op.add 7 "a", Op.add 7 "b", Op.remove 7 "a", Op.remove 7 "b",
            Op.add 9 "c"]).rbTree.Get k).isSome = true ↔
          (((New 0).run [Op.add 7 "a", Op.add 7 "b", Op.remove 7 "a", Op.remove 7 "b",
            Op.add 9 "c"]).idsAt k).Nonempty) ∧
        (∀ k, ((New 0).run [Op.add 7 "a", Op.add 7 "b", Op.remove 7 "a", Op.remove 7 "b",
            Op.add 9 "c"]).rbTree.Get k ≠ some ∅)) :=
  ⟨⟨0, _, rfl⟩, index_has_no_empty_set _ ⟨0, _, rfl⟩⟩

/-- C13: a removed item is not delivered, and its removal leaves the delivery
of the others alone. With the clock standing still, the batch of `prune` after
`Remove(ts, id)` holds exactly the items of the batch `prune` returns without
the `Remove`, except `(ts, id)`; each of them once. This holds whether `id` is
alone at `ts` or shares the timestamp, and in every state of the watcher. -/
theorem removed_item_is_not_delivered (w : Watcher) (r r' : MapRange) (now : Time)
    (ts : Int) (id : String) :
    (∀ item, item ∈ ((w.Remove ts id).prune r (fun _ => now)).1 ↔
      item ∈ (w.prune r' (fun _ => now)).1 ∧ item ≠ ⟨ts, id⟩) ∧
    ((w.Remove ts id).prune r (fun _ => now)).1.Nodup ∧
    (⟨ts, id⟩ : ExpiredItem) ∉ ((w.Remove ts id).prune r (fun _ => now)).1 := by
  have hB : (w.Remove ts id).expirationBuffer = w.expirationBuffer := by
    rw [Remove_frame]
  have hmem : ∀ item, item ∈ ((w.Remove ts id).prune r (fun _ => now)).1 ↔
      item ∈ (w.prune r' (fun _ => now)).1 ∧ item ≠ ⟨ts, id⟩ := by
    rintro ⟨ts', id'⟩
    rw [mem_prune_batch, mem_prune_batch, tracks_Remove_iff, hB]
    simp only [ne_eq, ExpiredItem.mk.injEq]
    tauto
  exact ⟨hmem, nodup_prune_batch _ r now, fun h => ((hmem _).1 h).2 rfl⟩

/-- C14: empty-state prune. Whatever the clock reads during the call and
whatever the buffer, `prune` on a watcher whose index has no entries returns
the empty batch (it has no error to return) and leaves the watcher as it was,
the index empty. -/
theorem prune_of_empty_index (w : Watcher) (r : MapRange) (clock : Nat → Time)
    (h : w.rbTree.entries = []) :
    (w.prune r clock).1 = [] ∧ (w.prune r clock).2 = w ∧
      (w.prune r clock).2.rbTree.entries = [] := by
  rw [prune_of_entries_nil w r clock h]
  exact ⟨rfl, rfl, h⟩

/-- C14 at a concrete input: the watcher `New` makes, with a buffer of -3 s. -/
theorem prune_of_empty_index_witness :
    (New (-3000000000)).rbTree.entries = [] ∧
      (((New (-3000000000)).prune sortedRange (fun i => Time.ofSeconds i)).1 = [] ∧
        ((New (-3000000000)).prune sortedRange (fun i => Time.ofSeconds i)).2 =
          New (-3000000000) ∧
        ((New (-3000000000)).prune sortedRange
          (fun i => Time.ofSeconds i)).2.rbTree.entries = []) :=
  ⟨rfl, prune_of_empty_index _ _ _ rfl⟩

/-- C15: `Stop` sets the watching flag to false and is idempotent: after `Stop`
`isWatching` is false, `Stop; Stop` leaves the state one `Stop` leaves, and
`Stop` changes neither `wasStartedOnce` nor the time index (nor the buffer,
the queue or the pollers). -/
theorem stop_is_idempotent (w : Watcher) :
    w.Stop.isWatching = false ∧ w.Stop.Stop = w.Stop ∧
      w.Stop.wasStartedOnce = w.wasStartedOnce ∧ w.Stop.rbTree = w.rbTree ∧
      w.Stop = { w with isWatching := false } :=
  ⟨rfl, rfl, rfl, rfl, rfl⟩

/-- C19: the effect of `prune` on the index. With the clock standing still at
`now`, after `prune` a key `k` is in the index exactly when it was a key before
and `k > Unix-seconds(now + buffer)`, and it keeps its id set; every key at or
below the threshold is gone; nothing else of the watcher changes. In
particular an item whose timestamp lies above the threshold is neither
returned nor removed. This holds in every state, the reachable ones included. -/
theorem prune_effect_on_index (w : Watcher) (r : MapRange) (now : Time) :
    (∀ k, (w.prune r (fun _ => now)).2.rbTree.Get k =
      if k ≤ (now.Add w.expirationBuffer).Unix then none else w.rbTree.Get k) ∧
    (w.prune r (fun _ => now)).2 =
      { w with rbTree := (w.prune r (fun _ => now)).2.rbTree } ∧
    (∀ ts id, w.tracks ts id → ts > (now.Add w.expirationBuffer).Unix →
      (⟨ts, id⟩ : ExpiredItem) ∉ (w.prune r (fun _ => now)).1 ∧
        (w.prune r (fun _ => now)).2.tracks ts id) := by
  refine ⟨get_prune w r now, rfl, ?_⟩
  intro ts id ht hgt
  constructor
  · intro hmem
    have := ((mem_prune_batch w r now ts id).1 hmem).2
    omega
  · exact (tracks_prune_iff w r now ts id).2 ⟨ht, by omega⟩

/-- C20: polls compose without loss or duplication. For clock readings
`now1 ≤ now2` and no call in between, the batch of a prune at `now1` followed
by the batch of a prune at `now2` on the state the first one left holds
exactly the items of a single prune at `now2` on the original state, each
once and in ascending timestamp order (the very same list when the three
prunes enumerate id sets alike), and both ways leave the same watcher. This
holds in every state, the reachable ones included. -/
theorem polls_compose (w : Watcher) (r1 r2 r3 : MapRange) (now1 now2 : Time)
    (h : now1.UnixNano ≤ now2.UnixNano) :
    ((w.prune r1 (fun _ => now1)).1 ++
        ((w.prune r1 (fun _ => now1)).2.prune r2 (fun _ => now2)).1).Perm
      (w.prune r3 (fun _ => now2)).1 ∧
    ((w.prune r1 (fun _ => now1)).1 ++
        ((w.prune r1 (fun _ => now1)).2.prune r2 (fun _ => now2)).1).Nodup ∧
    ((w.prune r1 (fun _ => now1)).1 ++
        ((w.prune r1 (fun _ => now1)).2.prune r2 (fun _ => now2)).1).Pairwise
      (fun a b => a.ExpirationTimeSeconds ≤ b.ExpirationTimeSeconds) ∧
    ((w.prune r1 (fun _ => now1)).2.prune r2 (fun _ => now2)).2 =
      (w.prune r3 (fun _ => now2)).2 ∧
    (r2 = r1 → r3 = r1 →
      (w.prune r1 (fun _ => now1)).1 ++
          ((w.prune r1 (fun _ => now1)).2.prune r2 (fun _ => now2)).1 =
        (w.prune r3 (fun _ => now2)).1) := by
  have hthr := Time.unix_add_mono now1 now2 w.expirationBuffer h
  have hB : (w.prune r1 (fun _ => now1)).2.expirationBuffer = w.expirationBuffer := rfl
  have hA : ∀ item, item ∈ (w.prune r1 (fun _ => now1)).1 ↔
      w.tracks item.ExpirationTimeSeconds item.ID ∧
        item.ExpirationTimeSeconds ≤ (now1.Add w.expirationBuffer).Unix :=
    mem_prune_batch_item w r1 now1
  have hS : ∀ item, item ∈ ((w.prune r1 (fun _ => now1)).2.prune r2 (fun _ => now2)).1 ↔
      (w.tracks item.ExpirationTimeSeconds item.ID ∧
        ¬ item.ExpirationTimeSeconds ≤ (now1.Add w.expirationBuffer).Unix) ∧
        item.ExpirationTimeSeconds ≤ (now2.Add w.expirationBuffer).Unix := by
    intro item
    rw [mem_prune_batch_item, tracks_prune_iff, hB]
  have hnd : ((w.prune r1 (fun _ => now1)).1 ++
      ((w.prune r1 (fun _ => now1)).2.prune r2 (fun _ => now2)).1).Nodup := by
    refine List.nodup_append.2 ⟨nodup_prune_batch _ _ _, nodup_prune_batch _ _ _, ?_⟩
    intro item ha hs
    exact ((hS item).1 hs).1.2 ((hA item).1 ha).2
  refine ⟨?_, hnd, ?_, ?_, ?_⟩
  · refine (List.perm_ext_iff_of_nodup hnd (nodup_prune_batch _ _ _)).2 ?_
    intro item
    rw [List.mem_append, hA, hS, mem_prune_batch_item]
    constructor
    · rintro (⟨ht, hle⟩ | ⟨⟨ht, _⟩, hle⟩)
      · exact ⟨ht, by omega⟩
      · exact ⟨ht, hle⟩
    · rintro ⟨ht, hle⟩
      by_cases h1 : item.ExpirationTimeSeconds ≤ (now1.Add w.expirationBuffer).Unix
      · exact Or.inl ⟨ht, h1⟩
      · exact Or.inr ⟨⟨ht, h1⟩, hle⟩
  · refine List.pairwise_append.2
      ⟨pairwise_prune_batch _ _ _, pairwise_prune_batch _ _ _, ?_⟩
    intro a ha b hb
    have h1 := ((hA a).1 ha).2
    have h2 := ((hS b).1 hb).1.2
    omega
  · refine Watcher.ext_fields rfl rfl (RbTree.ext_entries ?_) rfl rfl rfl rfl
    rw [prune_entries, prune_entries, prune_entries, hB, List.filter_filter]
    apply List.filter_congr
    intro e _
    by_cases h2 : due (now2.Add w.expirationBuffer).Unix e = true
    · simp [h2]
    · have h1 : due (now1.Add w.expirationBuffer).Unix e = false := by
        simp only [due, decide_eq_true_eq, decide_eq_false_iff_not] at h2 ⊢
        omega
      simp [h1]
  · intro e2 e3
    subst e2 e3
    rw [prune_batch, prune_batch, prune_batch, prune_entries, hB,
      filter_due_split hthr w.rbTree.ascending, List.flatMap_append]

/-- C20 at a concrete input: items at 7 and 9, a prune at second 8 and a prune
at second 10 against a single prune at second 10. -/
theorem polls_compose_witness :
    (Time.ofSeconds 8).UnixNano ≤ (Time.ofSeconds 10).UnixNano ∧
    ((((((New 0).Add 7 "a").Add 9 "b").prune sortedRange (fun _ => Time.ofSeconds 8)).1 ++
        (((((New 0).Add 7 "a").Add 9 "b").prune sortedRange
          (fun _ => Time.ofSeconds 8)).2.prune sortedRange
            (fun _ => Time.ofSeconds 10)).1).Perm
      ((((New 0).Add 7 "a").Add 9 "b").prune sortedRange (fun _ => Time.ofSeconds 10)).1 ∧
    (((((New 0).Add 7 "a").Add 9 "b").prune sortedRange (fun _ => Time.ofSeconds 8)).1 ++
        (((((New 0).Add 7 "a").Add 9 "b").prune sortedRange
          (fun _ => Time.ofSeconds 8)).2.prune sortedRange
            (fun _ => Time.ofSeconds 10)).1).Nodup ∧
    (((((New 0).Add 7 "a").Add 9 "b").prune sortedRange (fun _ => Time.ofSeconds 8)).1 ++
        (((((New 0).Add 7 "a").Add 9 "b").prune sortedRange
          (fun _ => Time.ofSeconds 8)).2.prune sortedRange
            (fun _ => Time.ofSeconds 10)).1).Pairwise
      (fun a b => a.ExpirationTimeSeconds ≤ b.ExpirationTimeSeconds) ∧
    (((((New 0).Add 7 "a").Add 9 "b").prune sortedRange
        (fun _ => Time.ofSeconds 8)).2.prune sortedRange (fun _ => Time.ofSeconds 10)).2 =
      ((((New 0).Add 7 "a").Add 9 "b").prune sortedRange (fun _ => Time.ofSeconds 10)).2 ∧
    (sortedRange = sortedRange → sortedRange = sortedRange →
      ((((New 0).Add 7 "a").Add 9 "b").prune sortedRange (fun _ => Time.ofSeconds 8)).1 ++
          (((((New 0).Add 7 "a").Add 9 "b").prune sortedRange
            (fun _ => Time.ofSeconds 8)).2.prune sortedRange
              (fun _ => Time.ofSeconds 10)).1 =
        ((((New 0).Add 7 "a").Add 9 "b").prune sortedRange
          (fun _ => Time.ofSeconds 10)).1)) :=
  ⟨by decide, polls_compose _ sortedRange sortedRange sortedRange (Time.ofSeconds 8)
    (Time.ofSeconds 10) (by decide)⟩

/-! ## The steps of the poller and of the consumer -/

theorem prune_frame (w : Watcher) (r : MapRange) (clock : Nat → Time) :
    (w.prune r clock).2 = { w with rbTree := (w.prune r clock).2.rbTree } := rfl

theorem tick_push (s : System) (i : Nat) (r : MapRange) (clock : Nat → Time)
    (hg : s.goroutines[i]? = some Poller.waiting) (hw : s.w.isWatching = true)
    (hc : s.w.expiredItemsClosed = false)
    (hq : s.w.expiredItems.length < queueCapacity) :
    s.tick i r clock =
      { s with w := { (s.w.prune r clock).2 with
                      expiredItems := s.w.expiredItems ++ [(s.w.prune r clock).1] } } := by
  have h1 : (s.w.prune r clock).2.expiredItemsClosed = false := hc
  have h2 : (s.w.prune r clock).2.expiredItems = s.w.expiredItems := rfl
  unfold System.tick
  rw [hg]
  simp only [hw, h1, h2, hq, Bool.true_eq_false, Bool.false_eq_true, if_false, if_true]

theorem tick_block (s : System) (i : Nat) (r : MapRange) (clock : Nat → Time)
    (hg : s.goroutines[i]? = some Poller.waiting) (hw : s.w.isWatching = true)
    (hc : s.w.expiredItemsClosed = false)
    (hq : ¬ s.w.expiredItems.length < queueCapacity) :
    s.tick i r clock =
      { s with w := (s.w.prune r clock).2
               goroutines := s.goroutines.set i (Poller.sending (s.w.prune r clock).1) } := by
  have h1 : (s.w.prune r clock).2.expiredItemsClosed = false := hc
  have h2 : (s.w.prune r clock).2.expiredItems = s.w.expiredItems := rfl
  unfold System.tick
  rw [hg]
  simp only [hw, h1, h2, hq, Bool.true_eq_false, Bool.false_eq_true, if_false]

theorem tick_close (s : System) (i : Nat) (r : MapRange) (clock : Nat → Time)
    (hg : s.goroutines[i]? = some Poller.waiting) (hw : s.w.isWatching = false) :
    s.tick i r clock =
      { s with w := { s.w with expiredItemsClosed := true }
               goroutines := s.goroutines.set i Poller.returned
               closes := s.closes + 1
               sendsOnClosed := s.sendsOnClosed +
                 (s.goroutines.filter Poller.isSending).length } := by
  unfold System.tick
  rw [hg]
  simp only [hw, if_true]

theorem tick_idle (s : System) (i : Nat) (r : MapRange) (clock : Nat → Time)
    (hg : s.goroutines[i]? ≠ some Poller.waiting) : s.tick i r clock = s := by
  unfold System.tick
  split
  · rename_i h; exact absurd h hg
  · rfl

theorem receive_empty (s : System) (hq : s.w.expiredItems = []) : s.receive = s := by
  unfold System.receive
  rw [hq]

theorem receive_pop (s : System) (batch : List ExpiredItem) (rest : List (List ExpiredItem))
    (hq : s.w.expiredItems = batch :: rest) (hg : wakeSender s.goroutines = none) :
    s.receive = { s with w := { s.w with expiredItems := rest }
                         received := s.received ++ [batch] } := by
  unfold System.receive
  rw [hq]
  simp only [hg]

theorem run_append (s : System) (a b : List Event) : s.run (a ++ b) = (s.run a).run b := by
  unfold System.run
  rw [List.foldl_append]

/-! ## The invariant of the poller -/

theorem inv_start (s : System) (p : Int) (h : s.Inv) : (s.step (Event.start p)).Inv := by
  obtain ⟨h0, h⟩ := h
  refine ⟨h0, ?_⟩
  rcases h with ⟨h1, h2, h3, h4, h5⟩ | ⟨h1, h2, h3, q, h4, h5⟩ | ⟨h1, h2, h3, h4, h5⟩
  · refine Or.inr (Or.inl ?_)
    simp [System.step, Watcher.Start, h1, h2, h3, h4, h5]
  · refine Or.inr (Or.inl ?_)
    by_cases hw : s.w.isWatching = true
    · simp [System.step, Watcher.Start, hw, h1, h2, h3, h4, h5]
    · simp [System.step, Watcher.Start, hw, h1, h2, h3, h4, h5]
  · refine Or.inr (Or.inr ?_)
    simp [System.step, Watcher.Start, h1, h2, h3, h4, h5]

theorem inv_stop (s : System) (h : s.Inv) : (s.step Event.stop).Inv := by
  obtain ⟨h0, h⟩ := h
  refine ⟨h0, ?_⟩
  rcases h with ⟨h1, h2, h3, h4, h5⟩ | ⟨h1, h2, h3, q, h4, h5⟩ | ⟨h1, h2, h3, h4, h5⟩
  · exact Or.inl ⟨h1, rfl, h3, h4, h5⟩
  · exact Or.inr (Or.inl ⟨h1, h2, h3, q, h4, h5⟩)
  · exact Or.inr (Or.inr ⟨h1, rfl, h3, h4, h5⟩)

theorem inv_of_frame (s : System) (w' : Watcher) (t : RbTree)
    (hw : w' = { s.w with rbTree := t }) (h : s.Inv) : ({ s with w := w' } : System).Inv := by
  subst hw
  exact h

theorem inv_tick (s : System) (i : Nat) (r : MapRange) (clock : Nat → Time) (h : s.Inv) :
    (s.step (Event.tick i r clock)).Inv := by
  show (s.tick i r clock).Inv
  by_cases hg : s.goroutines[i]? = some Poller.waiting
  · obtain ⟨h0, h⟩ := h
    rcases h with ⟨h1, h2, h3, h4, h5⟩ | ⟨h1, h2, h3, q, h4, h5⟩ | ⟨h1, h2, h3, h4, h5⟩
    · rw [h3] at hg; simp at hg
    · have hi : i = 0 := by
        rw [h4] at hg
        rcases i with _ | i
        · rfl
        · simp at hg
      subst hi
      have hq : q = Poller.waiting := by
        rw [h4] at hg; simpa using hg
      subst hq
      by_cases hw : s.w.isWatching = true
      · by_cases hlen : s.w.expiredItems.length < queueCapacity
        · rw [tick_push s 0 r clock hg hw h2 hlen]
          exact ⟨h0, Or.inr (Or.inl ⟨h1, h2, h3, Poller.waiting, h4, by simp⟩)⟩
        · rw [tick_block s 0 r clock hg hw h2 hlen]
          refine ⟨h0, Or.inr (Or.inl ⟨h1, h2, h3, Poller.sending (s.w.prune r clock).1, ?_, by simp⟩)⟩
          simp [h4]
      · have hw' : s.w.isWatching = false := by simpa using hw
        rw [tick_close s 0 r clock hg hw']
        refine ⟨?_, Or.inr (Or.inr ⟨h1, hw', rfl, ?_, ?_⟩)⟩
        · simp [h0, h4, Poller.isSending]
        · simp [h3]
        · simp [h4]
    · rw [h5] at hg
      rcases i with _ | i <;> simp at hg
  · rw [tick_idle s i r clock hg]
    exact h

theorem wakeSender_singleton (p : Poller) :
    wakeSender [p] = none ∨ ∃ b, p = Poller.sending b ∧ wakeSender [p] = some (b, [Poller.waiting]) := by
  cases p with
  | waiting => exact Or.inl rfl
  | sending b => exact Or.inr ⟨b, rfl, rfl⟩
  | returned => exact Or.inl rfl

theorem inv_receive (s : System) (h : s.Inv) : (s.step Event.receive).Inv := by
  show s.receive.Inv
  cases hq : s.w.expiredItems with
  | nil => rw [receive_empty s hq]; exact h
  | cons batch rest =>
    obtain ⟨h0, h⟩ := h
    rcases h with ⟨h1, h2, h3, h4, h5⟩ | ⟨h1, h2, h3, q, h4, h5⟩ | ⟨h1, h2, h3, h4, h5⟩
    · rw [receive_pop s batch rest hq (by rw [h3]; rfl)]
      exact ⟨h0, Or.inl ⟨h1, h2, h3, h4, h5⟩⟩
    · rcases wakeSender_singleton q with hn | ⟨b, hb, hs⟩
      · rw [receive_pop s batch rest hq (by rw [h4]; exact hn)]
        exact ⟨h0, Or.inr (Or.inl ⟨h1, h2, h3, q, h4, h5⟩)⟩
      · have : s.receive = { s with w := { s.w with expiredItems := rest ++ [b] }
                                    goroutines := [Poller.waiting]
                                    received := s.received ++ [batch] } := by
          unfold System.receive
          rw [hq, h4]
          simp only [hs]
        rw [this]
        exact ⟨h0, Or.inr (Or.inl ⟨h1, h2, h3, Poller.waiting, rfl, by simp⟩)⟩
    · rw [receive_pop s batch rest hq (by rw [h5]; rfl)]
      exact ⟨h0, Or.inr (Or.inr ⟨h1, h2, h3, h4, h5⟩)⟩

theorem inv_step (s : System) (ev : Event) (h : s.Inv) : (s.step ev).Inv := by
  cases ev with
  | start p => exact inv_start s p h
  | stop => exact inv_stop s h
  | add ts id => exact inv_of_frame s _ _ (Add_frame s.w ts id) h
  | remove ts id => exact inv_of_frame s _ _ (Remove_frame s.w ts id) h
  | tick i r clock => exact inv_tick s i r clock h
  | receive => exact inv_receive s h

theorem inv_run (events : List Event) : ∀ (s : System), s.Inv → (s.run events).Inv := by
  induction events with
  | nil => intro s h; exact h
  | cons ev rest ih => intro s h; exact ih _ (inv_step s ev h)

theorem mod_ne_zero_below {p τ : Nat} (h0 : 0 < τ) (h1 : τ < p) : τ % p ≠ 0 := by
  rw [Nat.mod_eq_of_lt h1]; omega

theorem mod_ne_zero_between {p τ : Nat} (h0 : p < τ) (h1 : τ < 2 * p) : τ % p ≠ 0 := by
  rw [Nat.mod_eq_sub_mod (le_of_lt h0), Nat.mod_eq_of_lt (by omega)]; omega

theorem tick_receive_watching (s : System) (r : MapRange) (clock : Nat → Time)
    (hg : s.goroutines = [Poller.waiting]) (hw : s.w.isWatching = true)
    (hc : s.w.expiredItemsClosed = false) (hq : s.w.expiredItems = []) :
    (s.tick 0 r clock).receive =
      { s with w := { (s.w.prune r clock).2 with expiredItems := [] }
               received := s.received ++ [(s.w.prune r clock).1] } := by
  rw [tick_push s 0 r clock (by rw [hg]; rfl) hw hc (by rw [hq]; decide)]
  rw [receive_pop _ (s.w.prune r clock).1 [] (by simp [hq]) (by simp [hg, wakeSender])]

theorem tick_receive_stopped (s : System) (r : MapRange) (clock : Nat → Time)
    (hg : s.goroutines = [Poller.waiting]) (hw : s.w.isWatching = false)
    (hq : s.w.expiredItems = []) :
    (s.tick 0 r clock).receive =
      { s with w := { s.w with expiredItemsClosed := true }
               goroutines := [Poller.returned]
               closes := s.closes + 1 } := by
  rw [tick_close s 0 r clock (by rw [hg]; rfl) hw]
  rw [receive_empty _ (by simpa using hq)]
  simp [hg, Poller.isSending]

theorem tick_receive_returned (s : System) (r : MapRange) (clock : Nat → Time)
    (hg : s.goroutines = [Poller.returned]) (hq : s.w.expiredItems = []) :
    (s.tick 0 r clock).receive = s := by
  rw [tick_idle s 0 r clock (by rw [hg]; simp), receive_empty s hq]

theorem step_tick_receive (s : System) (i : Nat) (r : MapRange) (clock : Nat → Time) :
    (s.step (Event.tick i r clock)).step Event.receive = (s.tick i r clock).receive := rfl

theorem run_timeline (w : Watcher) (p t : Nat) (r : Nat → MapRange)
    (clock : Nat → Nat → Time)
    (h1 : w.isWatching = false) (h2 : w.wasStartedOnce = false)
    (h3 : w.expiredItems = []) (h4 : w.expiredItemsClosed = false)
    (hp : 0 < p) (hpt : p ≤ t) (ht : t < 2 * p) (h : Nat) :
    ((System.of w).step (Event.start p)).run (timeline p t r clock h) =
      if h < p then
        ⟨(w.Start p).2, [Poller.waiting], [], 0, 0⟩
      else if h < t then
        ⟨{ ((w.Start p).2.prune (r p) (clock p)).2 with expiredItems := [] },
          [Poller.waiting], [((w.Start p).2.prune (r p) (clock p)).1], 0, 0⟩
      else if h < 2 * p then
        ⟨{ ((w.Start p).2.prune (r p) (clock p)).2 with
            expiredItems := [], isWatching := false },
          [Poller.waiting], [((w.Start p).2.prune (r p) (clock p)).1], 0, 0⟩
      else
        ⟨{ ((w.Start p).2.prune (r p) (clock p)).2 with
            expiredItems := [], isWatching := false, expiredItemsClosed := true },
          [Poller.returned], [((w.Start p).2.prune (r p) (clock p)).1], 1, 0⟩ := by
  have hstart : (w.Start p).1 = none ∧ (w.Start p).2.isWatching = true ∧
      (w.Start p).2.expiredItems = [] ∧ (w.Start p).2.expiredItemsClosed = false := by
    simp [Watcher.Start, h1, h2, h3, h4]
  obtain ⟨hs1, hs2, hs3, hs4⟩ := hstart
  induction h with
  | zero =>
    rw [if_pos hp]
    simp [timeline, System.run, System.step, System.of, hs1]
  | succ n ih =>
    simp only [timeline]
    rw [run_append, ih]
    have hrun2 : ∀ (s : System) (a b : Event), s.run [a, b] = (s.step a).step b :=
      fun _ _ _ => rfl
    have hrun3 : ∀ (s : System) (a b c : Event),
        s.run [a, b, c] = ((s.step a).step b).step c := fun _ _ _ _ => rfl
    have hrun0 : ∀ (s : System), s.run [] = s := fun _ => rfl
    have hrun1 : ∀ (s : System) (a : Event), s.run [a] = s.step a := fun _ _ => rfl
    by_cases c1 : n + 1 < p
    · have f1 : n < p := by omega
      have f2 : n + 1 ≠ t := by omega
      simp only [if_pos f1, if_pos c1, eventsAt,
        if_neg (mod_ne_zero_below (Nat.succ_pos n) c1), if_neg f2, List.append_nil, hrun0]
    · by_cases c2 : n + 1 = p
      · have f1 : n < p := by omega
        have hm : (n + 1) % p = 0 := by rw [c2]; exact Nat.mod_self p
        have f3 : 0 < 2 * p - (n + 1) := by omega
        have f4 : n + 1 < 2 * p := by omega
        by_cases c3 : n + 1 = t
        · have f2 : ¬ n + 1 < t := by omega
          simp only [if_pos f1, if_neg c1, if_neg f2, if_pos f4, eventsAt, if_pos hm,
            if_pos c3, List.cons_append, List.nil_append, hrun3]
          rw [c2]
          show (((System.tick _ 0 _ _).receive).step Event.stop) = _
          rw [tick_receive_watching _ _ _ rfl hs2 hs4 hs3]
          rfl
        · have f2 : n + 1 < t := by omega
          simp only [if_pos f1, if_neg c1, if_pos f2, eventsAt, if_pos hm,
            if_neg c3, List.append_nil, hrun2]
          rw [c2]
          show ((System.tick _ 0 _ _).receive) = _
          rw [tick_receive_watching _ _ _ rfl hs2 hs4 hs3]
          rfl
      · have f1 : ¬ n < p := by omega
        by_cases c4 : n + 1 < 2 * p
        · have hm := mod_ne_zero_between (show p < n + 1 by omega) c4
          have f5 : n < 2 * p := by omega
          by_cases c5 : n + 1 = t
          · have f2 : n < t := by omega
            have f3 : ¬ n + 1 < t := by omega
            simp only [if_neg f1, if_pos f2, if_neg c1, if_neg f3, if_pos c4, eventsAt,
              if_neg hm, if_pos c5, List.nil_append, hrun1]
            rfl
          · by_cases c6 : n < t
            · have f3 : n + 1 < t := by omega
              simp only [if_neg f1, if_pos c6, if_neg c1, if_pos f3, eventsAt,
                if_neg hm, if_neg c5, List.nil_append, hrun0]
            · have f3 : ¬ n + 1 < t := by omega
              simp only [if_neg f1, if_neg c6, if_pos f5, if_neg c1, if_neg f3, if_pos c4,
                eventsAt, if_neg hm, if_neg c5, List.nil_append, hrun0]
        · have f2 : ¬ n < t := by omega
          have f3 : ¬ n + 1 < t := by omega
          have c5 : n + 1 ≠ t := by omega
          by_cases c7 : n + 1 = 2 * p
          · have f5 : n < 2 * p := by omega
            have hm : (n + 1) % p = 0 := by rw [c7]; simp
            simp only [if_neg f1, if_neg f2, if_pos f5, if_neg c1, if_neg f3, if_neg c4,
              eventsAt, if_pos hm, if_neg c5, List.append_nil, hrun2]
            rw [step_tick_receive, tick_receive_stopped _ _ _ rfl rfl rfl]
          · have f5 : ¬ n < 2 * p := by omega
            simp only [if_neg f1, if_neg f2, if_neg f5, if_neg c1, if_neg f3, if_neg c4]
            by_cases hm : (n + 1) % p = 0
            · simp only [eventsAt, if_pos hm, if_neg c5, List.append_nil, hrun2]
              rw [step_tick_receive, tick_receive_returned _ _ _ rfl rfl]
            · simp only [eventsAt, if_neg hm, if_neg c5, List.nil_append, hrun0]

/-! ## After Stop -/

/-- C16: the delivery count of the poller. A watcher that was never started,
with an empty open queue, is started with the polling interval `p`; the timer
ticks at `p, 2p, ...`, the consumer takes what each tick delivers, and `Stop`
is called at the instant `t` with `p ≤ t < 2p`. Then from the first tick until
the second exactly one batch, the one pruned at the instant `p`, has been
delivered and the queue is open; the tick at `2p` pushes nothing and closes
the queue, and nothing more is delivered afterwards. In general a tick that
finds the watcher watching (and room in the open queue) pushes exactly one
batch, the one `prune` returns, and a tick that finds it not watching pushes
nothing, closes the queue and ends the goroutine. -/
theorem poller_delivers_one_batch (w : Watcher) (p t horizon : Nat) (r : Nat → MapRange)
    (clock : Nat → Nat → Time)
    (h1 : w.isWatching = false) (h2 : w.wasStartedOnce = false)
    (h3 : w.expiredItems = []) (h4 : w.expiredItemsClosed = false)
    (hp : 0 < p) (hpt : p ≤ t) (ht : t < 2 * p) (hh : 2 * p ≤ horizon) :
    ((((System.of w).step (Event.start p)).run (timeline p t r clock horizon)).received =
        [((w.Start p).2.prune (r p) (clock p)).1] ∧
      (((System.of w).step (Event.start p)).run
        (timeline p t r clock horizon)).w.expiredItemsClosed = true ∧
      (((System.of w).step (Event.start p)).run
        (timeline p t r clock horizon)).w.expiredItems = [] ∧
      (((System.of w).step (Event.start p)).run (timeline p t r clock horizon)).closes = 1 ∧
      (((System.of w).step (Event.start p)).run
        (timeline p t r clock horizon)).sendsOnClosed = 0) ∧
    (∀ h, p ≤ h → h < 2 * p →
      (((System.of w).step (Event.start p)).run (timeline p t r clock h)).received =
          [((w.Start p).2.prune (r p) (clock p)).1] ∧
        (((System.of w).step (Event.start p)).run
          (timeline p t r clock h)).w.expiredItemsClosed = false) ∧
    (∀ h, h < p →
      (((System.of w).step (Event.start p)).run (timeline p t r clock h)).received = []) ∧
    (∀ (s : System) (i : Nat) (r' : MapRange) (clock' : Nat → Time),
      s.goroutines[i]? = some Poller.waiting → s.w.isWatching = true →
      s.w.expiredItemsClosed = false → s.w.expiredItems.length < queueCapacity →
        (s.step (Event.tick i r' clock')).w.expiredItems =
            s.w.expiredItems ++ [(s.w.prune r' clock').1] ∧
          (s.step (Event.tick i r' clock')).w.expiredItemsClosed = false ∧
          (s.step (Event.tick i r' clock')).goroutines = s.goroutines) ∧
    (∀ (s : System) (i : Nat) (r' : MapRange) (clock' : Nat → Time),
      s.goroutines[i]? = some Poller.waiting → s.w.isWatching = false →
        (s.step (Event.tick i r' clock')).w.expiredItems = s.w.expiredItems ∧
          (s.step (Event.tick i r' clock')).w.expiredItemsClosed = true ∧
          (s.step (Event.tick i r' clock')).goroutines =
            s.goroutines.set i Poller.returned) := by
  have key := run_timeline w p t r clock h1 h2 h3 h4 hp hpt ht
  refine ⟨?_, ?_, ?_, ?_, ?_⟩
  · rw [key horizon, if_neg (by omega), if_neg (by omega), if_neg (by omega)]
    exact ⟨rfl, rfl, rfl, rfl, rfl⟩
  · intro h hle hlt
    rw [key h, if_neg (by omega)]
    by_cases c : h < t
    · rw [if_pos c]
      exact ⟨rfl, by simp [Watcher.Start, h1, h2, h4, Watcher.prune]⟩
    · rw [if_neg c, if_pos hlt]
      exact ⟨rfl, by simp [Watcher.Start, h1, h2, h4, Watcher.prune]⟩
  · intro h hlt
    rw [key h, if_pos hlt]
  · intro s i r' clock' hg hw hc hq
    show (s.tick i r' clock').w.expiredItems = _ ∧ (s.tick i r' clock').w.expiredItemsClosed = _ ∧
      (s.tick i r' clock').goroutines = _
    rw [tick_push s i r' clock' hg hw hc hq]
    exact ⟨rfl, hc, rfl⟩
  · intro s i r' clock' hg hw
    show (s.tick i r' clock').w.expiredItems = _ ∧ (s.tick i r' clock').w.expiredItemsClosed = _ ∧
      (s.tick i r' clock').goroutines = _
    rw [tick_close s i r' clock' hg hw]
    exact ⟨rfl, rfl, rfl⟩

/-- C16 at a concrete input: the polling interval is 50 (ms) and `Stop` is
called at 60; by the instant 120 exactly one batch was delivered and the queue
is closed. -/
theorem poller_delivers_one_batch_witness :
    (New 0).isWatching = false ∧ (New 0).wasStartedOnce = false ∧
      (New 0).expiredItems = [] ∧ (New 0).expiredItemsClosed = false ∧
      0 < 50 ∧ 50 ≤ 60 ∧ 60 < 2 * 50 ∧ 2 * 50 ≤ 120 ∧
      (((System.of (New 0)).step (Event.start (50 : Nat))).run
        (timeline 50 60 (fun _ => sortedRange) (fun τ _ => Time.ofSeconds τ) 120)).received =
        [(((New 0).Start (50 : Nat)).2.prune sortedRange (fun _ => Time.ofSeconds 50)).1] ∧
      (((System.of (New 0)).step (Event.start (50 : Nat))).run
        (timeline 50 60 (fun _ => sortedRange) (fun τ _ => Time.ofSeconds τ)
          120)).w.expiredItemsClosed = true :=
  have h := (poller_delivers_one_batch (New 0) 50 60 120 (fun _ => sortedRange)
    (fun τ _ => Time.ofSeconds τ) rfl rfl rfl rfl (by decide) (by decide) (by decide)
    (by decide)).1
  ⟨rfl, rfl, rfl, rfl, by decide, by decide, by decide, by decide, h.1, h.2.1⟩

/-! ## A round of prune at the grain of its locks -/

/-- With no call between the read and the delete, a round followed by `prune`
is `prune`: the round is one turn of the loop. -/
theorem pruneRound_then_prune (w : Watcher) (r : MapRange) (now : Time) :
    (w.pruneRound r now []).1 ++ ((w.pruneRound r now []).2.prune r (fun _ => now)).1 =
        (w.prune r (fun _ => now)).1 ∧
      ((w.pruneRound r now []).2.prune r (fun _ => now)).2 = (w.prune r (fun _ => now)).2 := by
  obtain ⟨q, c, ⟨l, hl⟩, B, iw, ws, ps⟩ := w
  cases l with
  | nil => exact ⟨rfl, rfl⟩
  | cons hd tl =>
    obtain ⟨k, v⟩ := hd
    by_cases hk : k > (now.Add B).Unix
    · have : Watcher.pruneRound ⟨q, c, ⟨(k, v) :: tl, hl⟩, B, iw, ws, ps⟩ r now [] =
          ([], ⟨q, c, ⟨(k, v) :: tl, hl⟩, B, iw, ws, ps⟩) := by
        simp [Watcher.pruneRound, RbTree.Min, hk, Watcher.run]
      rw [this]
      exact ⟨rfl, rfl⟩
    · have hdue : due (now.Add B).Unix (k, v) = true := by simp [due]; omega
      have : Watcher.pruneRound ⟨q, c, ⟨(k, v) :: tl, hl⟩, B, iw, ws, ps⟩ r now [] =
          (emit r (k, v), ⟨q, c, ⟨tl, (List.pairwise_cons.1 hl).2⟩, B, iw, ws, ps⟩) := by
        have hd : RbTree.Delete ⟨(k, v) :: tl, hl⟩ k = ⟨tl, (List.pairwise_cons.1 hl).2⟩ :=
          RbTree.ext_entries (deleteEntry_head hl)
        simp [Watcher.pruneRound, RbTree.Min, hk, Watcher.run, emit, hd]
      rw [this]
      constructor
      · rw [prune_batch, prune_batch]
        simp only [List.filter_cons_of_pos hdue, List.flatMap_cons]
      · refine Watcher.ext_fields rfl rfl (RbTree.ext_entries ?_) rfl rfl rfl rfl
        rw [prune_entries, prune_entries]
        exact (List.filter_cons_of_neg (by simp [hdue])).symm

/-- An `Add` of a new id at the key a round has read, taking the lock between
the read and the delete, is lost: the id is not in the batch and no longer in
the index. -/
theorem pruneRound_loses_add (w : Watcher) (r : MapRange) (now : Time) (key : Int)
    (value : Finset String) (id : String) (hmin : w.rbTree.Min = some (key, value))
    (hdue : key ≤ (now.Add w.expirationBuffer).Unix) (hid : id ∉ value) :
    (w.Add key id).tracks key id ∧
      (⟨key, id⟩ : ExpiredItem) ∉ (w.pruneRound r now [Op.add key id]).1 ∧
      ¬ (w.pruneRound r now [Op.add key id]).2.tracks key id := by
  have hround : w.pruneRound r now [Op.add key id] =
      (emit r (key, value),
        { w.Add key id with rbTree := (w.Add key id).rbTree.Delete key }) := by
    simp [Watcher.pruneRound, hmin, not_lt.2 hdue, Watcher.run, Watcher.step, emit]
  refine ⟨?_, ?_, ?_⟩
  · unfold Watcher.tracks
    rw [get_Add, if_pos rfl]
    cases w.rbTree.Get key with
    | none => exact ⟨{id}, rfl, Finset.mem_singleton_self id⟩
    | some old => exact ⟨insert id old, rfl, Finset.mem_insert_self id old⟩
  · rw [hround]
    intro hmem
    exact hid (mem_emit.1 hmem).2
  · rw [hround]
    rintro ⟨ids, hget, _⟩
    simp [RbTree.Get, RbTree.Delete, getEntry_deleteEntry] at hget

/-- C17 fails on the code: `prune` releases the read lock after `Min()` and
takes the write lock only for `Delete(key)`. The watcher tracks `(5, "a")`; a
round of `prune` at second 10 reads the key 5 with the set `{"a"}`; `Add(5,
"b")` gets the lock before the delete. The batch is `[(5, "a")]`, the index
is empty afterwards: `(5, "b")`, added in between, is neither emitted nor
tracked. Run one after the other, in either order, the two calls keep it. -/
theorem prune_round_is_not_atomic :
    (((New 0).Add 5 "a").pruneRound sortedRange (Time.ofSeconds 10) [Op.add 5 "b"]).1 =
        [⟨5, "a"⟩] ∧
      (((New 0).Add 5 "a").Add 5 "b").tracks 5 "b" ∧
      ¬ (((New 0).Add 5 "a").pruneRound sortedRange (Time.ofSeconds 10)
          [Op.add 5 "b"]).2.tracks 5 "b" ∧
      (((New 0).Add 5 "a").pruneRound sortedRange (Time.ofSeconds 10)
          [Op.add 5 "b"]).2.rbTree.entries = [] ∧
      (⟨5, "b"⟩ : ExpiredItem) ∈
        ((((New 0).Add 5 "a").Add 5 "b").prune sortedRange (fun _ => Time.ofSeconds 10)).1 ∧
      ((((New 0).Add 5 "a").prune sortedRange (fun _ => Time.ofSeconds 10)).2.Add 5
          "b").tracks 5 "b" := by
  have hmin : ((New 0).Add 5 "a").rbTree.Min = some (5, {"a"}) := by decide
  have hdue : (5 : Int) ≤ ((Time.ofSeconds 10).Add ((New 0).Add 5 "a").expirationBuffer).Unix := by
    decide
  have hid : "b" ∉ ({"a"} : Finset String) := by decide
  have hlost := pruneRound_loses_add ((New 0).Add 5 "a") sortedRange (Time.ofSeconds 10) 5
    {"a"} "b" hmin hdue hid
  have hround : ((New 0).Add 5 "a").pruneRound sortedRange (Time.ofSeconds 10)
      [Op.add 5 "b"] =
      (emit sortedRange (5, {"a"}),
        { ((New 0).Add 5 "a").Add 5 "b" with
          rbTree := (((New 0).Add 5 "a").Add 5 "b").rbTree.Delete 5 }) := by
    simp [Watcher.pruneRound, hmin, not_lt.2 hdue, Watcher.run, Watcher.step, emit]
  have htr : (((New 0).Add 5 "a").Add 5 "b").tracks 5 "b" :=
    ⟨{"b", "a"}, by decide, by decide⟩
  refine ⟨?_, htr, hlost.2.2, ?_, ?_, ?_⟩
  · rw [hround]
    simp [emit, sortedRange]
  · rw [hround]
    decide
  · exact (mem_prune_batch _ _ _ 5 "b").2 ⟨htr, by decide⟩
  · unfold Watcher.tracks
    rw [get_Add, if_pos rfl]
    cases (((New 0).Add 5 "a").prune sortedRange (fun _ => Time.ofSeconds 10)).2.rbTree.Get 5 with
    | none => exact ⟨{"b"}, rfl, Finset.mem_singleton_self _⟩
    | some old => exact ⟨insert "b" old, rfl, Finset.mem_insert_self _ _⟩

end expirationwatch
